import Mathlib

/-!
# Fibonacci by dynamic programming: `fiboDP.cpp`

A shallow embedding of `src/Dynamic_Programming/fiboDP.cpp` and the properties
its specification states about it.

Modelling decisions.

* A C++ `int` is an `Int` of the embedding; the value additions of the program
  (`fibo(n-1,dp) + fibo(n-2,dp)`, `dp2[i-1] + dp2[i-2]`) and the size and counter
  expressions that can leave the `int` range (`n + 1`, `i++`) wrap modulo `2^32`
  into the signed range (`wrap32`).
* An array is a list; an access outside it, a read of a cell that was never
  written and a negative array size are faults (`Except Fault`): the program has
  no defined result there.
* The order in which the two operands of `fibo(n-1,dp) + fibo(n-2,dp)` are
  evaluated is left open by the language, so the embedding takes it as a
  parameter (`EvalOrder`) and the theorems hold for both orders.
* Every array access and every addition is recorded in a trace of `Event`s, so
  that statements about the work done can be made.
-/

namespace FiboDP

/-! ## Machine integers -/

/-- The value of a mathematical integer as a 32-bit two's complement `int`. -/
def wrap32 (x : Int) : Int := (x + 2147483648) % 4294967296 - 2147483648

/-- The `+` of two `int`s. -/
def addInt (a b : Int) : Int := wrap32 (a + b)

/-- Largest `int`. -/
def INT_MAX : Int := 2147483647

/-! ## Faults, events, arrays -/

/-- The ways a run can fail to produce a value. -/
inductive Fault where
  /-- The error kind named by the specification; no path of the source raises it. -/
  | invalidArgument
  /-- An array is read or written outside its bounds. -/
  | outOfBounds
  /-- A variable-length array is declared with a negative size. -/
  | negativeArraySize
  /-- A cell is read before any value was stored in it. -/
  | uninitialisedRead
  /-- The recursion or the loop was cut by the fuel bound of the embedding. -/
  | outOfFuel
  deriving DecidableEq, Repr

/-- One observable step of a run. -/
inductive Event where
  /-- The cell `i` of the table is read. -/
  | read (i : Int)
  /-- The value `v` is stored in the cell `i` of the table. -/
  | write (i : Int) (v : Int)
  /-- The sum of the `int`s `a` and `b` is computed. -/
  | add (a b : Int)
  deriving DecidableEq, Repr

/-- The read `dp[i]` of an `int` array. -/
def readAt (dp : List Int) (i : Int) : Option Int :=
  if i < 0 then none else dp[i.toNat]?

/-- The store `dp[i] = v` in an `int` array. -/
def writeAt (dp : List Int) (i : Int) (v : Int) : Option (List Int) :=
  if i < 0 then none
  else if i.toNat < dp.length then some (dp.set i.toNat v) else none

/-- The memo table `main` builds: `len` cells, each filled with `-1` by `memset`. -/
def freshMemo (len : Nat) : List Int := List.replicate len (-1)

/-! ## `fibo`: top-down, memoised -/

/-- The order in which `fibo(n - 1, dp) + fibo(n - 2, dp)` evaluates its operands. -/
inductive EvalOrder where
  | leftFirst
  | rightFirst
  deriving DecidableEq, Repr

/-- What a call of `fibo` leaves behind: the returned value, the memo table after
the call and the events of the call. -/
structure Run where
  val : Int
  dp : List Int
  trace : List Event
  deriving DecidableEq, Repr

/-- The statement `return dp[n] = x + y;` where `x` is the value of `fibo(n-1,dp)`
and `y` the value of `fibo(n-2,dp)`; `tr` holds the events up to this point. -/
def storeSum (n : Int) (dp : List Int) (x y : Int) (tr : List Event) : Except Fault Run :=
  match writeAt dp n (addInt x y) with
  | none => .error .outOfBounds
  | some dp1 => .ok ⟨addInt x y, dp1, tr ++ [.add x y, .write n (addInt x y)]⟩

/-- The body of `fibo`, with a bound `fuel` on the number of nested calls.
`n - 1` and `n - 2` are evaluated only after `dp[n]` was read inside the table,
hence for `2 ≤ n`, where they stay in the `int` range. -/
def fiboFuel (ord : EvalOrder) : Nat → Int → List Int → Except Fault Run
  | 0, _, _ => .error .outOfFuel
  | fuel + 1, n, dp =>
    if n = 0 ∨ n = 1 then .ok ⟨n, dp, []⟩
    else
      match readAt dp n with
      | none => .error .outOfBounds
      | some v =>
        if v ≠ -1 then .ok ⟨v, dp, [.read n, .read n]⟩
        else
          match ord with
          | .leftFirst =>
            match fiboFuel ord fuel (n - 1) dp with
            | .error e => .error e
            | .ok r1 =>
              match fiboFuel ord fuel (n - 2) r1.dp with
              | .error e => .error e
              | .ok r2 =>
                storeSum n r2.dp r1.val r2.val ([.read n] ++ r1.trace ++ r2.trace)
          | .rightFirst =>
            match fiboFuel ord fuel (n - 2) dp with
            | .error e => .error e
            | .ok r2 =>
              match fiboFuel ord fuel (n - 1) r2.dp with
              | .error e => .error e
              | .ok r1 =>
                storeSum n r1.dp r1.val r2.val ([.read n] ++ r2.trace ++ r1.trace)

/-- The function `fibo(n, dp)`: the nesting of calls below `fibo(n, dp)` is less
than `n`, so `n + 1` levels are always enough (`fiboFuel_fuel_irrelevant`). -/
def fibo (ord : EvalOrder) (n : Int) (dp : List Int) : Except Fault Run :=
  fiboFuel ord (n.toNat + 1) n dp

/-! ## `fiboBup`: bottom-up -/

/-- The table `dp2` of `fiboBup`: a cell holds nothing until it is assigned. -/
abbrev Table := List (Option Int)

/-- The read `dp2[i]`. -/
def readCell (t : Table) (i : Int) : Except Fault Int :=
  if i < 0 then .error .outOfBounds
  else
    match t[i.toNat]? with
    | none => .error .outOfBounds
    | some none => .error .uninitialisedRead
    | some (some v) => .ok v

/-- The store `dp2[i] = v`. -/
def writeCell (t : Table) (i : Int) (v : Int) : Except Fault Table :=
  if i < 0 then .error .outOfBounds
  else if i.toNat < t.length then .ok (t.set i.toNat (some v)) else .error .outOfBounds

/-- The declaration `int dp2[size];`. -/
def allocTable (size : Int) : Except Fault Table :=
  if size < 0 then .error .negativeArraySize else .ok (List.replicate size.toNat none)

/-- What a call of `fiboBup` leaves behind. -/
structure BupRun where
  val : Int
  table : Table
  trace : List Event
  deriving DecidableEq, Repr

/-- The loop `for (int i = 2; i <= n; i++) dp2[i] = dp2[i - 1] + dp2[i - 2];`
from the counter value `i` on, with a bound `fuel` on the number of tests of
`i <= n`. The counter starts at `2` and only grows below the largest `int`, so
`i - 1` and `i - 2` stay in the `int` range; `i++` is the one step that can wrap. -/
def bupLoop (n : Int) : Nat → Int → Table → List Event → Except Fault (Table × List Event)
  | 0, _, _, _ => .error .outOfFuel
  | fuel + 1, i, t, tr =>
    if i ≤ n then
      match readCell t (i - 1) with
      | .error e => .error e
      | .ok a =>
        match readCell t (i - 2) with
        | .error e => .error e
        | .ok b =>
          match writeCell t i (addInt a b) with
          | .error e => .error e
          | .ok t1 =>
            bupLoop n fuel (wrap32 (i + 1)) t1
              (tr ++ [.read (i - 1), .read (i - 2), .add a b, .write i (addInt a b)])
    else .ok (t, tr)

/-- The function `fiboBup(n)`. The loop tests `i <= n` for `i = 2, ..., n + 1`,
that is at most `n` times. -/
def fiboBup (n : Int) : Except Fault BupRun :=
  if n = 0 ∨ n = 1 then .ok ⟨n, [], []⟩
  else
    match allocTable (wrap32 (n + 1)) with
    | .error e => .error e
    | .ok t0 =>
      match writeCell t0 0 0 with
      | .error e => .error e
      | .ok t1 =>
        match writeCell t1 1 1 with
        | .error e => .error e
        | .ok t2 =>
          match bupLoop n n.toNat 2 t2 [.write 0 0, .write 1 1] with
          | .error e => .error e
          | .ok (t3, tr) =>
            match readCell t3 n with
            | .error e => .error e
            | .ok v => .ok ⟨v, t3, tr ++ [.read n]⟩

/-! ## The reference sequence -/

/-- The Fibonacci numbers: `Fib 0 = 0`, `Fib 1 = 1`, `Fib k = Fib (k-1) + Fib (k-2)`. -/
def Fib : Nat → Nat
  | 0 => 0
  | 1 => 1
  | k + 2 => Fib (k + 1) + Fib k

/-- The `k`-th Fibonacci number as the program's `int` arithmetic yields it. -/
def wfib (k : Nat) : Int := wrap32 (Fib k)

/-! ## Observations on traces and tables -/

/-- The stores of a trace, in order: cell and stored value. -/
def writesOf : List Event → List (Int × Int)
  | [] => []
  | .write i v :: tr => (i, v) :: writesOf tr
  | _ :: tr => writesOf tr

/-- The additions of a trace, in order: left and right operand. -/
def addsOf : List Event → List (Int × Int)
  | [] => []
  | .add a b :: tr => (a, b) :: addsOf tr
  | _ :: tr => addsOf tr

/-- The cells read by a trace, in order. -/
def readsOf : List Event → List Int
  | [] => []
  | .read i :: tr => i :: readsOf tr
  | _ :: tr => readsOf tr

/-- The cells a trace touches, by a read or by a store, in order. -/
def accessesOf : List Event → List Int
  | [] => []
  | .read i :: tr => i :: accessesOf tr
  | .write i _ :: tr => i :: accessesOf tr
  | .add _ _ :: tr => accessesOf tr

/-- Whether every read of the trace is of a cell that holds a value: a cell listed
in `written` or stored to by an earlier event of the trace. -/
def readsAfterWrites (written : List Int) : List Event → Bool
  | [] => true
  | .read i :: tr => decide (i ∈ written) && readsAfterWrites written tr
  | .write i _ :: tr => readsAfterWrites (i :: written) tr
  | .add _ _ :: tr => readsAfterWrites written tr

/-- Whether the sum of two `int`s is an `int`, that is whether their addition
does not overflow. -/
def sumFits (p : Int × Int) : Prop := -2147483648 ≤ p.1 + p.2 ∧ p.1 + p.2 ≤ INT_MAX

/-- The memo table of length `len` whose cells `2, ..., j` hold their Fibonacci
value (as an `int`) and whose other cells hold `-1`. -/
def memoUpTo (len j : Nat) : List Int :=
  (List.range len).map (fun i => if 2 ≤ i ∧ i ≤ j then wfib i else -1)

/-- The table of `fiboBup` of length `len` whose cells below `i` are assigned. -/
def bupTable (len i : Nat) : Table :=
  (List.range len).map (fun k => if k < i then some (wfib k) else none)

/-- The events of the iterations `i, ..., n` of the loop of `fiboBup`. -/
def loopTrace (i n : Nat) : List Event :=
  (List.range' i (n + 1 - i)).flatMap (fun k =>
    [.read ((k : Int) - 1), .read ((k : Int) - 2), .add (wfib (k - 1)) (wfib (k - 2)),
      .write k (wfib k)])

/-- Every cell `i ≤ n` of the table holds `-1` or the `int` value of `Fib i`. -/
def ValidUpTo (n : Nat) (dp : List Int) : Prop :=
  ∀ i : Nat, i ≤ n → ∀ v : Int, dp[i]? = some v → v = -1 ∨ v = wfib i

/-- Every cell `i` of the table holds `-1` or `Fib i`. -/
def MemoInv (dp : List Int) : Prop :=
  ∀ i : Nat, ∀ v : Int, dp[i]? = some v → v = -1 ∨ v = (Fib i : Int)

/-! ## Arithmetic of `int` -/

theorem wrap32_of_range (x : Int) (h1 : -2147483648 ≤ x) (h2 : x < 2147483648) :
    wrap32 x = x := by
  unfold wrap32; omega

theorem wrap32_add_wrap32 (a b : Int) : wrap32 (wrap32 a + wrap32 b) = wrap32 (a + b) := by
  unfold wrap32; omega

theorem wrap32_range (x : Int) : -2147483648 ≤ wrap32 x ∧ wrap32 x < 2147483648 := by
  unfold wrap32; omega

theorem Fib_add_two (k : Nat) : Fib (k + 2) = Fib (k + 1) + Fib k := rfl

theorem Fib_eq_fib : ∀ k, Fib k = Nat.fib k
  | 0 => rfl
  | 1 => rfl
  | k + 2 => by
    rw [Fib_add_two, Nat.fib_add_two, Fib_eq_fib k, Fib_eq_fib (k + 1), Nat.add_comm]

theorem Fib_mono_succ (k : Nat) : Fib k ≤ Fib (k + 1) := by
  cases k with
  | zero => decide
  | succ m => rw [Fib_add_two]; omega

theorem Fib_mono {a b : Nat} (h : a ≤ b) : Fib a ≤ Fib b := by
  induction h with
  | refl => exact Nat.le_refl _
  | step _ ih => exact Nat.le_trans ih (Fib_mono_succ _)

theorem Fib_46 : Fib 46 = 1836311903 := by decide

theorem Fib_47 : Fib 47 = 2971215073 := by decide

theorem wfib_zero : wfib 0 = 0 := by decide

theorem wfib_one : wfib 1 = 1 := by decide

theorem wfib_add_two (k : Nat) : wfib (k + 2) = addInt (wfib (k + 1)) (wfib k) := by
  unfold addInt wfib
  rw [wrap32_add_wrap32, Fib_add_two]
  push_cast
  rfl

theorem wfib_of_le_46 {k : Nat} (h : k ≤ 46) : wfib k = (Fib k : Int) := by
  have h1 : Fib k ≤ Fib 46 := Fib_mono h
  rw [Fib_46] at h1
  unfold wfib
  apply wrap32_of_range <;> omega

/-- The Fibonacci numbers that fit in an `int` are those of index at most `46`. -/
theorem Fib_fits_iff (k : Nat) : (Fib k : Int) ≤ INT_MAX ↔ k ≤ 46 := by
  unfold INT_MAX
  constructor
  · intro h
    by_contra hk
    have h1 : Fib 47 ≤ Fib k := Fib_mono (by omega)
    rw [Fib_47] at h1
    omega
  · intro h
    have h1 : Fib k ≤ Fib 46 := Fib_mono h
    rw [Fib_46] at h1
    omega

/-! ## Array accesses -/

theorem readAt_natCast (dp : List Int) (i : Nat) : readAt dp (i : Int) = dp[i]? := by
  unfold readAt
  simp

theorem writeAt_natCast (dp : List Int) (i : Nat) (v : Int) (h : i < dp.length) :
    writeAt dp (i : Int) v = some (dp.set i v) := by
  unfold writeAt
  simp [h]

theorem readAt_neg (dp : List Int) (i : Int) (h : i < 0) : readAt dp i = none := by
  unfold readAt
  simp [h]

theorem readAt_eq_some_iff (dp : List Int) (i v : Int) :
    readAt dp i = some v ↔ 0 ≤ i ∧ dp[i.toNat]? = some v := by
  unfold readAt
  by_cases h : i < 0
  · simp [h]
  · simp [h]; omega

theorem memoUpTo_length (len j : Nat) : (memoUpTo len j).length = len := by
  simp [memoUpTo]

theorem memoUpTo_getElem? (len j i : Nat) (h : i < len) :
    (memoUpTo len j)[i]? = some (if 2 ≤ i ∧ i ≤ j then wfib i else -1) := by
  simp [memoUpTo, List.getElem?_map, List.getElem?_range h]

theorem memoUpTo_le_one (len j : Nat) (hj : j ≤ 1) : memoUpTo len j = freshMemo len := by
  apply List.ext_getElem?
  intro i
  by_cases h : i < len
  · rw [memoUpTo_getElem? _ _ _ h]
    simp [freshMemo, List.getElem?_replicate, h]
    omega
  · simp [memoUpTo, freshMemo, List.getElem?_replicate, h]
    omega

theorem memoUpTo_max_one (len n : Nat) : memoUpTo len (max 1 n) = memoUpTo len n := by
  by_cases h : 1 ≤ n
  · rw [Nat.max_eq_right h]
  · rw [Nat.max_eq_left (by omega), memoUpTo_le_one len 1 (Nat.le_refl _),
      memoUpTo_le_one len n (by omega)]

theorem memoUpTo_set (len j : Nat) (h1 : 1 ≤ j) :
    (memoUpTo len j).set (j + 1) (wfib (j + 1)) = memoUpTo len (j + 1) := by
  apply List.ext_getElem?
  intro i
  by_cases h : i < len
  · rw [memoUpTo_getElem? _ _ _ h, List.getElem?_set]
    by_cases hi : j + 1 = i
    · subst hi
      simp [memoUpTo_length, h]
      omega
    · rw [if_neg hi, memoUpTo_getElem? _ _ _ h]
      congr 1
      have : (2 ≤ i ∧ i ≤ j) ↔ (2 ≤ i ∧ i ≤ j + 1) := by omega
      simp only [this]
  · have h2 : len ≤ i := by omega
    rw [List.getElem?_eq_none (by simp [memoUpTo_length]; exact h2),
      List.getElem?_eq_none (by simp [memoUpTo_length]; exact h2)]

/-! ## `fibo` on a table that satisfies the memo invariant -/

theorem ValidUpTo_mono {a b : Nat} (h : a ≤ b) {dp : List Int} (hv : ValidUpTo b dp) :
    ValidUpTo a dp :=
  fun i hi v hvi => hv i (Nat.le_trans hi h) v hvi

theorem fiboFuel_base (ord : EvalOrder) (fuel : Nat) (n : Int) (dp : List Int)
    (h : n = 0 ∨ n = 1) : fiboFuel ord (fuel + 1) n dp = .ok ⟨n, dp, []⟩ := by
  simp [fiboFuel, h]

theorem fiboFuel_hit (ord : EvalOrder) (fuel : Nat) (m : Nat) (dp : List Int) (v : Int)
    (hr : dp[m + 2]? = some v) (hv : v ≠ -1) :
    fiboFuel ord (fuel + 1) ((m + 2 : Nat) : Int) dp
      = .ok ⟨v, dp, [.read ((m + 2 : Nat) : Int), .read ((m + 2 : Nat) : Int)]⟩ := by
  have h0 : ¬ ((((m + 2 : Nat) : Int) = 0) ∨ (((m + 2 : Nat) : Int) = 1)) := by omega
  simp only [fiboFuel, if_neg h0, readAt_natCast, hr]
  simp [hv]

/-- Shape of a call that misses the memo table, operands evaluated left to right. -/
theorem fiboFuel_miss_left (fuel : Nat) (m : Nat) (dp : List Int)
    (hr : dp[m + 2]? = some (-1)) (r1 r2 : Run)
    (h1 : fiboFuel .leftFirst fuel ((m + 1 : Nat) : Int) dp = .ok r1)
    (h2 : fiboFuel .leftFirst fuel ((m : Nat) : Int) r1.dp = .ok r2) :
    fiboFuel .leftFirst (fuel + 1) ((m + 2 : Nat) : Int) dp
      = storeSum ((m + 2 : Nat) : Int) r2.dp r1.val r2.val
          ([.read ((m + 2 : Nat) : Int)] ++ r1.trace ++ r2.trace) := by
  have h0 : ¬ ((((m + 2 : Nat) : Int) = 0) ∨ (((m + 2 : Nat) : Int) = 1)) := by omega
  have e1 : ((m + 2 : Nat) : Int) - 1 = ((m + 1 : Nat) : Int) := by omega
  have e2 : ((m + 2 : Nat) : Int) - 2 = ((m : Nat) : Int) := by omega
  rw [fiboFuel, if_neg h0, readAt_natCast, hr]
  simp only [e1, e2, h1, h2]
  simp

/-- Shape of a call that misses the memo table, operands evaluated right to left. -/
theorem fiboFuel_miss_right (fuel : Nat) (m : Nat) (dp : List Int)
    (hr : dp[m + 2]? = some (-1)) (r1 r2 : Run)
    (h2 : fiboFuel .rightFirst fuel ((m : Nat) : Int) dp = .ok r2)
    (h1 : fiboFuel .rightFirst fuel ((m + 1 : Nat) : Int) r2.dp = .ok r1) :
    fiboFuel .rightFirst (fuel + 1) ((m + 2 : Nat) : Int) dp
      = storeSum ((m + 2 : Nat) : Int) r1.dp r1.val r2.val
          ([.read ((m + 2 : Nat) : Int)] ++ r2.trace ++ r1.trace) := by
  have h0 : ¬ ((((m + 2 : Nat) : Int) = 0) ∨ (((m + 2 : Nat) : Int) = 1)) := by omega
  have e1 : ((m + 2 : Nat) : Int) - 1 = ((m + 1 : Nat) : Int) := by omega
  have e2 : ((m + 2 : Nat) : Int) - 2 = ((m : Nat) : Int) := by omega
  rw [fiboFuel, if_neg h0, readAt_natCast, hr]
  simp only [e1, e2, h1, h2]
  simp

theorem storeSum_natCast (k : Nat) (dp : List Int) (x y : Int) (tr : List Event)
    (h : k < dp.length) :
    storeSum (k : Int) dp x y tr
      = .ok ⟨addInt x y, dp.set k (addInt x y),
          tr ++ [.add x y, .write (k : Int) (addInt x y)]⟩ := by
  unfold storeSum
  rw [writeAt_natCast _ _ _ h]

/-- Storing `Fib (m + 2)` in the cell `m + 2`, which held `-1`, keeps the invariant
and the frame. -/
theorem valid_after_store (m : Nat) (dp D : List Int) (hlen : D.length = dp.length)
    (hr : dp[m + 2]? = some (-1)) (hD : ValidUpTo (m + 1) D)
    (hfr : ∀ i : Nat, (m + 1 < i ∨ dp[i]? ≠ some (-1)) → D[i]? = dp[i]?) :
    (D.set (m + 2) (wfib (m + 2))).length = dp.length ∧
      ValidUpTo (m + 2) (D.set (m + 2) (wfib (m + 2))) ∧
      ∀ i : Nat, (m + 2 < i ∨ dp[i]? ≠ some (-1)) →
        (D.set (m + 2) (wfib (m + 2)))[i]? = dp[i]? := by
  refine ⟨by simp [hlen], ?_, ?_⟩
  · intro i hi v hiv
    rw [List.getElem?_set] at hiv
    by_cases h : m + 2 = i
    · subst h
      rw [if_pos rfl] at hiv
      split at hiv
      · right; exact (Option.some.inj hiv).symm
      · exact absurd hiv (by simp)
    · rw [if_neg h] at hiv
      exact hD i (by omega) v hiv
  · intro i hi
    rw [List.getElem?_set]
    by_cases h : m + 2 = i
    · subst h
      rcases hi with hi | hi
      · omega
      · exact absurd hr hi
    · rw [if_neg h]
      apply hfr
      rcases hi with hi | hi
      · left; omega
      · right; exact hi

/-- On a table longer than `n` whose cells up to `n` satisfy the invariant,
`fibo(n, dp)` returns the `int` value of `Fib n`, keeps the invariant, and changes
neither a cell beyond `n` nor a cell that was set. -/
theorem fiboFuel_valid (ord : EvalOrder) :
    ∀ (fuel n : Nat) (dp : List Int), n < fuel → n < dp.length → ValidUpTo n dp →
      ∃ r : Run, fiboFuel ord fuel (n : Int) dp = .ok r ∧ r.val = wfib n ∧
        r.dp.length = dp.length ∧ ValidUpTo n r.dp ∧
        ∀ i : Nat, (n < i ∨ dp[i]? ≠ some (-1)) → r.dp[i]? = dp[i]? := by
  intro fuel
  induction fuel with
  | zero => intro n dp h; omega
  | succ fuel ih =>
    intro n dp hf hlen hv
    match n, hf, hlen, hv with
    | 0, _, _, hv =>
      exact ⟨⟨0, dp, []⟩, fiboFuel_base ord fuel _ dp (Or.inl rfl), wfib_zero.symm, rfl, hv,
        fun _ _ => rfl⟩
    | 1, _, _, hv =>
      exact ⟨⟨1, dp, []⟩, fiboFuel_base ord fuel _ dp (Or.inr rfl), wfib_one.symm, rfl, hv,
        fun _ _ => rfl⟩
    | m + 2, hf, hlen, hv =>
      obtain ⟨v, hr⟩ : ∃ v, dp[m + 2]? = some v := ⟨dp[m + 2], List.getElem?_eq_getElem hlen⟩
      by_cases hv1 : v = -1
      · subst hv1
        cases ord with
        | leftFirst =>
          obtain ⟨r1, h1, hval1, hlen1, hvalid1, hframe1⟩ :=
            ih (m + 1) dp (by omega) (by omega) (ValidUpTo_mono (by omega) hv)
          obtain ⟨r2, h2, hval2, hlen2, hvalid2, hframe2⟩ :=
            ih m r1.dp (by omega) (by omega) (ValidUpTo_mono (by omega) hvalid1)
          rw [fiboFuel_miss_left fuel m dp hr r1 r2 h1 h2,
            storeSum_natCast _ _ _ _ _ (by omega), hval1, hval2, ← wfib_add_two]
          have hD : ValidUpTo (m + 1) r2.dp := by
            intro i hi v hiv
            by_cases h : i = m + 1
            · subst h
              rw [hframe2 (m + 1) (Or.inl (by omega))] at hiv
              exact hvalid1 _ (Nat.le_refl _) v hiv
            · exact hvalid2 i (by omega) v hiv
          have hfr : ∀ i : Nat, (m + 1 < i ∨ dp[i]? ≠ some (-1)) → r2.dp[i]? = dp[i]? := by
            intro i hi
            have e1 : r1.dp[i]? = dp[i]? := hframe1 i hi
            rw [← e1]
            apply hframe2
            rcases hi with hi | hi
            · left; omega
            · right; rw [e1]; exact hi
          obtain ⟨g1, g2, g3⟩ := valid_after_store m dp r2.dp (by omega) hr hD hfr
          exact ⟨_, rfl, rfl, g1, g2, g3⟩
        | rightFirst =>
          obtain ⟨r2, h2, hval2, hlen2, hvalid2, hframe2⟩ :=
            ih m dp (by omega) (by omega) (ValidUpTo_mono (by omega) hv)
          have hpre : ValidUpTo (m + 1) r2.dp := by
            intro i hi v hiv
            by_cases h : i = m + 1
            · subst h
              rw [hframe2 (m + 1) (Or.inl (by omega))] at hiv
              exact hv _ (by omega) v hiv
            · exact hvalid2 i (by omega) v hiv
          obtain ⟨r1, h1, hval1, hlen1, hvalid1, hframe1⟩ :=
            ih (m + 1) r2.dp (by omega) (by omega) hpre
          rw [fiboFuel_miss_right fuel m dp hr r1 r2 h2 h1,
            storeSum_natCast _ _ _ _ _ (by omega), hval1, hval2, ← wfib_add_two]
          have hfr : ∀ i : Nat, (m + 1 < i ∨ dp[i]? ≠ some (-1)) → r1.dp[i]? = dp[i]? := by
            intro i hi
            have e2 : r2.dp[i]? = dp[i]? := by
              apply hframe2
              rcases hi with hi | hi
              · left; omega
              · right; exact hi
            rw [← e2]
            apply hframe1
            rcases hi with hi | hi
            · left; exact hi
            · right; rw [e2]; exact hi
          obtain ⟨g1, g2, g3⟩ := valid_after_store m dp r1.dp (by omega) hr hvalid1 hfr
          exact ⟨_, rfl, rfl, g1, g2, g3⟩
      · rw [fiboFuel_hit ord fuel m dp v hr hv1]
        refine ⟨_, rfl, ?_, rfl, hv, fun _ _ => rfl⟩
        rcases hv (m + 2) (Nat.le_refl _) v hr with h | h
        · exact absurd h hv1
        · exact h

/-! ## Traces -/

@[simp] theorem writesOf_nil : writesOf [] = [] := rfl

@[simp] theorem writesOf_read (i : Int) (tr : List Event) :
    writesOf (.read i :: tr) = writesOf tr := rfl

@[simp] theorem writesOf_add (a b : Int) (tr : List Event) :
    writesOf (.add a b :: tr) = writesOf tr := rfl

@[simp] theorem writesOf_write (i v : Int) (tr : List Event) :
    writesOf (.write i v :: tr) = (i, v) :: writesOf tr := rfl

@[simp] theorem addsOf_nil : addsOf [] = [] := rfl

@[simp] theorem addsOf_read (i : Int) (tr : List Event) :
    addsOf (.read i :: tr) = addsOf tr := rfl

@[simp] theorem addsOf_add (a b : Int) (tr : List Event) :
    addsOf (.add a b :: tr) = (a, b) :: addsOf tr := rfl

@[simp] theorem addsOf_write (i v : Int) (tr : List Event) :
    addsOf (.write i v :: tr) = addsOf tr := rfl

@[simp] theorem readsOf_nil : readsOf [] = [] := rfl

@[simp] theorem readsOf_read (i : Int) (tr : List Event) :
    readsOf (.read i :: tr) = i :: readsOf tr := rfl

@[simp] theorem readsOf_add (a b : Int) (tr : List Event) :
    readsOf (.add a b :: tr) = readsOf tr := rfl

@[simp] theorem readsOf_write (i v : Int) (tr : List Event) :
    readsOf (.write i v :: tr) = readsOf tr := rfl

theorem writesOf_append (a b : List Event) : writesOf (a ++ b) = writesOf a ++ writesOf b := by
  induction a with
  | nil => rfl
  | cons e a ih => cases e <;> simp [ih]

theorem addsOf_append (a b : List Event) : addsOf (a ++ b) = addsOf a ++ addsOf b := by
  induction a with
  | nil => rfl
  | cons e a ih => cases e <;> simp [ih]

theorem readsOf_append (a b : List Event) : readsOf (a ++ b) = readsOf a ++ readsOf b := by
  induction a with
  | nil => rfl
  | cons e a ih => cases e <;> simp [ih]

/-- Two adjacent index segments joined. -/
theorem map_range'_append {α : Type} (f : Nat → α) (a p b q : Nat) (h : b = a + p) :
    (List.range' a p).map f ++ (List.range' b q).map f = (List.range' a (p + q)).map f := by
  subst h
  rw [← List.map_append, List.range'_append_1, Nat.add_comm]

/-! ## `fibo` on a table filled up to an index -/

/-- On the table whose cells `2, ..., j` are set, `fibo(k, dp)` returns the `int`
value of `Fib k` and leaves the table with the cells `2, ..., max j k` set; it
stores in the cells `j + 1, ..., k`, in this order, each once, after one addition
each; and it reads cells between `2` and `k` only. -/
theorem fiboFuel_memoUpTo (ord : EvalOrder) :
    ∀ (fuel k j len : Nat), k < fuel → 1 ≤ j → k < len →
      (∀ i : Nat, 2 ≤ i → i ≤ max j k → wfib i ≠ -1) →
      ∃ tr : List Event,
        fiboFuel ord fuel (k : Int) (memoUpTo len j) = .ok ⟨wfib k, memoUpTo len (max j k), tr⟩ ∧
        writesOf tr = (List.range' (j + 1) (k - j)).map (fun i : Nat => ((i : Int), wfib i)) ∧
        addsOf tr = (List.range' (j + 1) (k - j)).map (fun i : Nat => (wfib (i - 1), wfib (i - 2))) ∧
        ∀ i ∈ readsOf tr, 2 ≤ i ∧ i ≤ (k : Int) := by
  intro fuel
  induction fuel with
  | zero => intro k j len h; omega
  | succ fuel ih =>
    intro k j len hf hj hkl hne
    match k, hf, hkl, hne with
    | 0, _, _, _ =>
      refine ⟨[], ?_, ?_, ?_, ?_⟩
      · rw [fiboFuel_base ord fuel ((0 : Nat) : Int) _ (Or.inl rfl), wfib_zero,
          Nat.max_eq_left (by omega)]
        rfl
      · simp [writesOf]
      · simp [addsOf]
      · simp [readsOf]
    | 1, _, _, _ =>
      refine ⟨[], ?_, ?_, ?_, ?_⟩
      · rw [fiboFuel_base ord fuel ((1 : Nat) : Int) _ (Or.inr rfl), wfib_one,
          Nat.max_eq_left (by omega)]
        rfl
      · simp [writesOf, show 1 - j = 0 by omega]
      · simp [addsOf, show 1 - j = 0 by omega]
      · simp [readsOf]
    | m + 2, hf, hkl, hne =>
      have hr := memoUpTo_getElem? len j (m + 2) hkl
      by_cases hjm : m + 2 ≤ j
      · have hv : wfib (m + 2) ≠ -1 := hne _ (by omega) (by omega)
        rw [if_pos ⟨by omega, hjm⟩] at hr
        refine ⟨[.read ((m + 2 : Nat) : Int), .read ((m + 2 : Nat) : Int)], ?_, ?_, ?_, ?_⟩
        · rw [fiboFuel_hit ord fuel m _ _ hr hv, Nat.max_eq_left hjm]
        · simp [writesOf, show m + 2 - j = 0 by omega]
        · simp [addsOf, show m + 2 - j = 0 by omega]
        · simp [readsOf]
      · rw [if_neg (by omega)] at hr
        have hmax : max j (m + 2) = m + 2 := Nat.max_eq_right (by omega)
        cases ord with
        | leftFirst =>
          obtain ⟨t1, h1, w1, a1, rd1⟩ := ih (m + 1) j len (by omega) hj (by omega)
            (fun i h2 hi => hne i h2 (by omega))
          have hmax1 : max j (m + 1) = m + 1 := Nat.max_eq_right (by omega)
          rw [hmax1] at h1
          obtain ⟨t2, h2, w2, a2, rd2⟩ := ih m (m + 1) len (by omega) (by omega) (by omega)
            (fun i h2 hi => hne i h2 (by omega))
          have hmax2 : max (m + 1) m = m + 1 := Nat.max_eq_left (by omega)
          rw [hmax2] at h2
          refine ⟨[.read ((m + 2 : Nat) : Int)] ++ t1 ++ t2 ++
            [.add (wfib (m + 1)) (wfib m), .write ((m + 2 : Nat) : Int) (wfib (m + 2))],
            ?_, ?_, ?_, ?_⟩
          · rw [fiboFuel_miss_left fuel m _ hr _ _ h1 h2,
              storeSum_natCast _ _ _ _ _ (by simp [memoUpTo_length]; omega)]
            simp only [← wfib_add_two, memoUpTo_set len (m + 1) (by omega), hmax]
          · rw [show m - (m + 1) = 0 by omega, List.range'_zero, List.map_nil] at w2
            simp only [writesOf_append, w1, w2, writesOf_read, writesOf_add, writesOf_write,
              writesOf_nil, List.nil_append, List.append_nil]
            rw [show m + 2 - j = (m + 1 - j) + 1 by omega, List.range'_1_concat, List.map_append,
              show j + 1 + (m + 1 - j) = m + 2 by omega]
            rfl
          · rw [show m - (m + 1) = 0 by omega, List.range'_zero, List.map_nil] at a2
            simp only [addsOf_append, a1, a2, addsOf_read, addsOf_add, addsOf_write,
              addsOf_nil, List.nil_append, List.append_nil]
            rw [show m + 2 - j = (m + 1 - j) + 1 by omega, List.range'_1_concat, List.map_append,
              show j + 1 + (m + 1 - j) = m + 2 by omega]
            rfl
          · intro i hi
            simp only [readsOf_append, readsOf_read, readsOf_add, readsOf_write, readsOf_nil,
              List.mem_append, List.mem_singleton, List.append_nil, List.not_mem_nil,
              or_false] at hi
            rcases hi with (hi | hi) | hi
            · subst hi; omega
            · have := rd1 i hi; omega
            · have := rd2 i hi; omega
        | rightFirst =>
          obtain ⟨t2, h2, w2, a2, rd2⟩ := ih m j len (by omega) hj (by omega)
            (fun i h2 hi => hne i h2 (by omega))
          obtain ⟨t1, h1, w1, a1, rd1⟩ := ih (m + 1) (max j m) len (by omega) (by omega)
            (by omega) (fun i h2 hi => hne i h2 (by omega))
          have hmax1 : max (max j m) (m + 1) = m + 1 := by omega
          rw [hmax1] at h1
          have hseg : max j m + 1 = j + 1 + (m - j) := by omega
          have hcnt : m - j + (m + 1 - max j m) = m + 1 - j := by omega
          refine ⟨[.read ((m + 2 : Nat) : Int)] ++ t2 ++ t1 ++
            [.add (wfib (m + 1)) (wfib m), .write ((m + 2 : Nat) : Int) (wfib (m + 2))],
            ?_, ?_, ?_, ?_⟩
          · rw [fiboFuel_miss_right fuel m _ hr _ _ h2 h1,
              storeSum_natCast _ _ _ _ _ (by simp [memoUpTo_length]; omega)]
            simp only [← wfib_add_two, memoUpTo_set len (m + 1) (by omega), hmax]
          · simp only [writesOf_append, w1, w2, writesOf_read, writesOf_add, writesOf_write,
              writesOf_nil, List.nil_append, List.append_nil]
            rw [map_range'_append _ _ _ _ _ hseg, hcnt,
              show m + 2 - j = (m + 1 - j) + 1 by omega, List.range'_1_concat, List.map_append,
              show j + 1 + (m + 1 - j) = m + 2 by omega]
            rfl
          · simp only [addsOf_append, a1, a2, addsOf_read, addsOf_add, addsOf_write,
              addsOf_nil, List.nil_append, List.append_nil]
            rw [map_range'_append _ _ _ _ _ hseg, hcnt,
              show m + 2 - j = (m + 1 - j) + 1 by omega, List.range'_1_concat, List.map_append,
              show j + 1 + (m + 1 - j) = m + 2 by omega]
            rfl
          · intro i hi
            simp only [readsOf_append, readsOf_read, readsOf_add, readsOf_write, readsOf_nil,
              List.mem_append, List.mem_singleton, List.append_nil, List.not_mem_nil,
              or_false] at hi
            rcases hi with (hi | hi) | hi
            · subst hi; omega
            · have := rd2 i hi; omega
            · have := rd1 i hi; omega

/-! ## The computed values never collide with the sentinel

`Fib k ≡ -1 (mod 2^32)` forces `k ≡ -2 (mod 3 * 2^31)`, so that no `int` value of
a Fibonacci number of index below `3 * 2^31 - 2` is `-1`. -/

theorem fibZ_add_two (k : Nat) :
    (Nat.fib (k + 2) : Int) = Nat.fib k + Nat.fib (k + 1) := by
  rw [Nat.fib_add_two]; push_cast; rfl

theorem fibZ_two_mul_add_one (n : Nat) :
    (Nat.fib (2 * n + 1) : Int) = (Nat.fib (n + 1) : Int) ^ 2 + (Nat.fib n : Int) ^ 2 := by
  rw [Nat.fib_two_mul_add_one]; push_cast; rfl

theorem fibZ_two_mul (n : Nat) :
    (Nat.fib (2 * n) : Int) = Nat.fib n * (2 * Nat.fib (n + 1) - Nat.fib n) := by
  rw [Nat.fib_two_mul]
  have h : Nat.fib n ≤ 2 * Nat.fib (n + 1) := by
    have := Nat.fib_le_fib_succ (n := n)
    omega
  push_cast [Nat.cast_sub h]
  rfl

/-- If the pair `(Fib p, Fib (p + 1))` is `(0, 1)` modulo `M`, then `p` is a period
of the Fibonacci numbers modulo `M`. -/
theorem fibZ_period (M : Int) (p : Nat) (h0 : M ∣ (Nat.fib p : Int))
    (h1 : M ∣ (Nat.fib (p + 1) : Int) - 1) :
    ∀ k : Nat, M ∣ (Nat.fib (k + p) : Int) - Nat.fib k ∧
      M ∣ (Nat.fib (k + 1 + p) : Int) - Nat.fib (k + 1) := by
  intro k
  induction k with
  | zero =>
    constructor
    · simpa using h0
    · simpa [Nat.add_comm] using h1
  | succ k ih =>
    refine ⟨ih.2, ?_⟩
    have e1 : k + 1 + 1 + p = (k + p) + 2 := by omega
    rw [e1, fibZ_add_two, fibZ_add_two k]
    have e2 : k + p + 1 = k + 1 + p := by omega
    rw [e2]
    have := dvd_add ih.1 ih.2
    convert this using 1
    ring

theorem fibZ_period_mul (M : Int) (p : Nat) (h0 : M ∣ (Nat.fib p : Int))
    (h1 : M ∣ (Nat.fib (p + 1) : Int) - 1) (r : Nat) :
    ∀ q : Nat, M ∣ (Nat.fib (r + p * q) : Int) - Nat.fib r := by
  intro q
  induction q with
  | zero => simp
  | succ q ih =>
    have h := (fibZ_period M p h0 h1 (r + p * q)).1
    have e : r + p * (q + 1) = r + p * q + p := by ring
    rw [e]
    have := dvd_add h ih
    convert this using 1
    ring

/-- The Fibonacci pair at the index `6 * 2^j`, modulo `16 * 2^j`. -/
theorem fibZ_at_period (j : Nat) :
    ∃ u t : Int, (Nat.fib (6 * 2 ^ j) : Int) = 8 * 2 ^ j * u ∧
      (Nat.fib (6 * 2 ^ j + 1) : Int) = 1 + 4 * 2 ^ j + 8 * 2 ^ j * t := by
  induction j with
  | zero => exact ⟨1, 1, by decide, by decide⟩
  | succ j ih =>
    obtain ⟨u, t, hu, ht⟩ := ih
    have e : 6 * 2 ^ (j + 1) = 2 * (6 * 2 ^ j) := by ring
    refine ⟨u * (1 + 4 * 2 ^ j + 8 * 2 ^ j * t - 4 * 2 ^ j * u),
      2 ^ j + 4 * 2 ^ j * t ^ 2 + t + 4 * 2 ^ j * t + 4 * 2 ^ j * u ^ 2, ?_, ?_⟩
    · rw [e, fibZ_two_mul, ht, hu]; ring
    · rw [e, fibZ_two_mul_add_one, ht, hu]; ring

theorem fib_mod_four (k : Nat) (h : (4 : Int) ∣ (Nat.fib k : Int) + 1) : 6 ∣ k + 2 := by
  have hp := fibZ_period_mul 4 6 (by decide) (by decide) (k % 6) (k / 6)
  rw [Nat.mod_add_div] at hp
  have h2 : (4 : Int) ∣ (Nat.fib (k % 6) : Int) + 1 := by
    have := dvd_sub h hp
    convert this using 1
    ring
  have hlt : k % 6 < 6 := Nat.mod_lt _ (by decide)
  have h4 : k % 6 = 4 := by
    generalize k % 6 = r at h2 hlt
    interval_cases r <;> first | rfl | (exfalso; revert h2; decide)
  omega

/-- `Fib k ≡ -1` modulo `4 * 2^j` only for `k ≡ -2` modulo `6 * 2^j`. -/
theorem fib_neg_one_index (j : Nat) :
    ∀ k : Nat, ((4 * 2 ^ j : Int) ∣ (Nat.fib k : Int) + 1) → 6 * 2 ^ j ∣ k + 2 := by
  induction j with
  | zero =>
    intro k h
    simpa using fib_mod_four k (by simpa using h)
  | succ j ih =>
    intro k h
    have hP : (0 : Int) < 2 ^ j := by positivity
    have hPn : 0 < 2 ^ j := by positivity
    have h' : (4 * 2 ^ j : Int) ∣ (Nat.fib k : Int) + 1 := by
      refine Dvd.dvd.trans ?_ h
      exact ⟨2, by ring⟩
    obtain ⟨q, hq⟩ := ih k h'
    rcases Nat.even_or_odd' q with ⟨c, hc | hc⟩
    · exact ⟨c, by rw [hq, hc]; ring⟩
    · exfalso
      obtain ⟨u, t, hu, ht⟩ := fibZ_at_period j
      obtain ⟨u1, t1, hu1, ht1⟩ := fibZ_at_period (j + 1)
      have e12 : 6 * 2 ^ (j + 1) = 12 * 2 ^ j := by ring
      rw [e12] at hu1 ht1
      have ha : 6 ≤ 6 * 2 ^ j := by omega
      obtain ⟨a, hadef⟩ : ∃ a, 6 * 2 ^ j = a + 2 := ⟨6 * 2 ^ j - 2, by omega⟩
      have hk : k = a + 12 * 2 ^ j * c := by
        have : k + 2 = (a + 2) * (2 * c + 1) := by rw [hq, hc, hadef]
        have e : 12 * 2 ^ j * c = (a + 2) * (2 * c) := by rw [← hadef]; ring
        rw [e]
        have e3 : (a + 2) * (2 * c + 1) = (a + 2) * (2 * c) + a + 2 := by ring
        omega
      have hper := fibZ_period_mul (8 * 2 ^ j) (12 * 2 ^ j)
        ⟨2 * u1, by rw [hu1]; ring⟩ ⟨1 + 2 * t1, by rw [ht1]; ring⟩ a c
      rw [← hk] at hper
      have h8 : (8 * 2 ^ j : Int) ∣ (Nat.fib k : Int) + 1 := by
        refine Dvd.dvd.trans ?_ h
        exact ⟨1, by ring⟩
      have hfa : (8 * 2 ^ j : Int) ∣ (Nat.fib a : Int) + 1 := by
        have := dvd_sub h8 hper
        convert this using 1
        ring
      rw [hadef] at hu ht
      have r1 := fibZ_add_two a
      have r2 := fibZ_add_two (a + 1)
      rw [hu] at r1
      rw [show a + 1 + 2 = a + 2 + 1 by rfl, ht, show a + 1 + 1 = a + 2 by rfl, hu] at r2
      obtain ⟨w, hw⟩ := hfa
      have key : (2 : Int) ^ j * (4 - 8 * (2 * u - t - w)) = 0 := by
        linear_combination (-1 : Int) * hw - r1 + r2
      rcases mul_eq_zero.mp key with h0 | h0
      · omega
      · omega

/-- The `int` value of `Fib k` is the sentinel `-1` for no index `k` below
`3 * 2^31 - 2`; every index an `int` can hold is below this bound. -/
theorem wfib_ne_neg_one (k : Nat) (h : k < 6442450942) : wfib k ≠ -1 := by
  intro hw
  have hd : ((4 * 2 ^ 30 : Int)) ∣ (Nat.fib k : Int) + 1 := by
    unfold wfib wrap32 at hw
    rw [Fib_eq_fib] at hw
    apply Int.dvd_of_emod_eq_zero
    norm_num
    omega
  obtain ⟨q, hq⟩ := fib_neg_one_index 30 k hd
  norm_num at hq
  omega

/-! ## `fiboBup` -/

theorem bupTable_length (len i : Nat) : (bupTable len i).length = len := by
  simp [bupTable]

theorem bupTable_getElem? (len i k : Nat) (h : k < len) :
    (bupTable len i)[k]? = some (if k < i then some (wfib k) else none) := by
  simp [bupTable, List.getElem?_map, List.getElem?_range h]

theorem bupTable_set (len i : Nat) :
    (bupTable len i).set i (some (wfib i)) = bupTable len (i + 1) := by
  apply List.ext_getElem?
  intro k
  by_cases h : k < len
  · rw [bupTable_getElem? _ _ _ h, List.getElem?_set]
    by_cases hi : i = k
    · subst hi
      simp [bupTable_length, h]
    · rw [if_neg hi, bupTable_getElem? _ _ _ h]
      congr 1
      have : k < i ↔ k < i + 1 := by omega
      simp only [this]
  · have h2 : len ≤ k := by omega
    rw [List.getElem?_eq_none (by simp [bupTable_length]; exact h2),
      List.getElem?_eq_none (by simp [bupTable_length]; exact h2)]

theorem bupTable_zero (len : Nat) : bupTable len 0 = List.replicate len none := by
  apply List.ext_getElem?
  intro k
  by_cases h : k < len
  · rw [bupTable_getElem? _ _ _ h]
    simp [List.getElem?_replicate, h]
  · simp [bupTable, List.getElem?_replicate, h]

theorem readCell_bupTable (len i k : Nat) (h : k < len) (hk : k < i) :
    readCell (bupTable len i) (k : Int) = .ok (wfib k) := by
  unfold readCell
  simp [bupTable_getElem? _ _ _ h, hk]

theorem writeCell_bupTable (len i : Nat) (h : i < len) :
    writeCell (bupTable len i) (i : Int) (wfib i) = .ok (bupTable len (i + 1)) := by
  unfold writeCell
  simp [bupTable_length, h, bupTable_set]

theorem loopTrace_step (i n : Nat) (h : i ≤ n) :
    loopTrace i n =
      [.read ((i : Int) - 1), .read ((i : Int) - 2), .add (wfib (i - 1)) (wfib (i - 2)),
        .write i (wfib i)] ++ loopTrace (i + 1) n := by
  unfold loopTrace
  rw [show n + 1 - i = (n + 1 - (i + 1)) + 1 by omega, List.range'_succ]
  simp

theorem loopTrace_done (n : Nat) : loopTrace (n + 1) n = [] := by
  simp [loopTrace]

/-- The loop of `fiboBup` run from the counter value `i`, the cells below `i`
being assigned: it assigns the remaining cells, each read being of an assigned
cell. -/
theorem bupLoop_spec (n : Nat) (hn : n + 1 < 2147483648) :
    ∀ (fuel i : Nat) (tr : List Event), 2 ≤ i → i ≤ n + 1 → n + 1 - i < fuel →
      bupLoop (n : Int) fuel (i : Int) (bupTable (n + 1) i) tr
        = .ok (bupTable (n + 1) (n + 1), tr ++ loopTrace i n) := by
  intro fuel
  induction fuel with
  | zero => intro i tr _ _ h; omega
  | succ fuel ih =>
    intro i tr h2 hi hf
    by_cases hle : i ≤ n
    · obtain ⟨m, rfl⟩ : ∃ m, i = m + 2 := ⟨i - 2, by omega⟩
      have c1 : ((m + 2 : Nat) : Int) - 1 = ((m + 1 : Nat) : Int) := by omega
      have c2 : ((m + 2 : Nat) : Int) - 2 = ((m : Nat) : Int) := by omega
      have c3 : wrap32 (((m + 2 : Nat) : Int) + 1) = ((m + 2 + 1 : Nat) : Int) := by
        rw [wrap32_of_range] <;> omega
      have hle' : ((m + 2 : Nat) : Int) ≤ (n : Int) := by omega
      rw [bupLoop, if_pos hle']
      simp only [c1, c2, c3]
      rw [readCell_bupTable _ _ _ (by omega) (by omega),
        readCell_bupTable _ _ _ (by omega) (by omega)]
      simp only [← wfib_add_two]
      rw [writeCell_bupTable _ _ (by omega)]
      simp only []
      rw [ih (m + 2 + 1) _ (by omega) (by omega) (by omega), loopTrace_step _ _ hle]
      simp only [List.append_assoc, c1, c2]
      rfl
    · have e : i = n + 1 := by omega
      subst e
      have hgt : ¬ (((n + 1 : Nat) : Int) ≤ (n : Int)) := by omega
      rw [bupLoop, if_neg hgt, loopTrace_done, List.append_nil]

/-- For `2 ≤ n` with `n + 1` an `int`, `fiboBup(n)` returns the `int` value of
`Fib n`, having assigned every cell of its table, with the events listed. -/
theorem fiboBup_spec (n : Nat) (h2 : 2 ≤ n) (hn : n + 1 < 2147483648) :
    fiboBup (n : Int) = .ok ⟨wfib n, bupTable (n + 1) (n + 1),
      [.write 0 0, .write 1 1] ++ loopTrace 2 n ++ [.read (n : Int)]⟩ := by
  have h0 : ¬ (((n : Nat) : Int) = 0 ∨ ((n : Nat) : Int) = 1) := by omega
  have hw : wrap32 ((n : Int) + 1) = ((n + 1 : Nat) : Int) := by
    rw [wrap32_of_range] <;> omega
  have ht2 : ((List.replicate (n + 1) (none : Option Int)).set 0 (some 0)).set 1 (some 1)
      = bupTable (n + 1) 2 := by
    rw [← bupTable_zero, ← wfib_zero, bupTable_set, ← wfib_one, bupTable_set]
  unfold fiboBup
  rw [if_neg h0, hw]
  have ha : allocTable ((n + 1 : Nat) : Int) = .ok (List.replicate (n + 1) none) := by
    unfold allocTable
    rw [if_neg (by omega)]
    simp
  simp only [ha]
  have hw0 : writeCell (List.replicate (n + 1) none) 0 0
      = .ok ((List.replicate (n + 1) (none : Option Int)).set 0 (some 0)) := by
    unfold writeCell
    simp
  have hw1 : writeCell ((List.replicate (n + 1) (none : Option Int)).set 0 (some 0)) 1 1
      = .ok (bupTable (n + 1) 2) := by
    unfold writeCell
    rw [← ht2]
    simp
    omega
  simp only [hw0, hw1]
  have hl := bupLoop_spec n hn n 2 [.write 0 0, .write 1 1] (by omega) (by omega) (by omega)
  simp only [Int.toNat_ofNat, Nat.cast_ofNat] at hl ⊢
  rw [hl]
  simp only []
  rw [readCell_bupTable _ _ _ (by omega) (by omega)]

/-! ## The top-level calls -/

theorem freshMemo_getElem? (len i : Nat) (v : Int) (h : (freshMemo len)[i]? = some v) :
    v = -1 := by
  unfold freshMemo at h
  rw [List.getElem?_replicate] at h
  split at h
  · exact (Option.some.inj h).symm
  · exact absurd h (by simp)

theorem ValidUpTo_fresh (n len : Nat) : ValidUpTo n (freshMemo len) :=
  fun i _ v hv => Or.inl (freshMemo_getElem? len i v hv)

theorem MemoInv_fresh (len : Nat) : MemoInv (freshMemo len) :=
  fun i v hv => Or.inl (freshMemo_getElem? len i v hv)

theorem fibo_natCast (ord : EvalOrder) (n : Nat) (dp : List Int) :
    fibo ord (n : Int) dp = fiboFuel ord (n + 1) (n : Int) dp := by
  unfold fibo
  rw [Int.toNat_ofNat]

theorem freshMemo_of_all (dp : List Int) (len : Nat) (hl : dp.length = len)
    (h : ∀ x ∈ dp, x = -1) : dp = freshMemo len := by
  subst hl
  exact List.eq_replicate_of_mem h

/-- On the fresh table of `main`, `fibo(n, dp)` returns the `int` value of `Fib n`. -/
theorem fibo_fresh_val (ord : EvalOrder) (n len : Nat) (hlen : n < len) :
    ∃ r : Run, fibo ord (n : Int) (freshMemo len) = .ok r ∧ r.val = wfib n := by
  obtain ⟨r, h, hv, _⟩ := fiboFuel_valid ord (n + 1) n (freshMemo len) (by omega)
    (by simp [freshMemo]; exact hlen) (ValidUpTo_fresh n len)
  exact ⟨r, by rw [fibo_natCast]; exact h, hv⟩

/-- The full outcome of `fibo(n, dp)` on the fresh table of `main`, for an index
an `int` can hold. -/
theorem fibo_fresh (ord : EvalOrder) (n : Nat) (hn : n < 6442450942) :
    ∃ tr : List Event,
      fibo ord (n : Int) (freshMemo (n + 1)) = .ok ⟨wfib n, memoUpTo (n + 1) n, tr⟩ ∧
      writesOf tr = (List.range' 2 (n - 1)).map (fun i : Nat => ((i : Int), wfib i)) ∧
      addsOf tr = (List.range' 2 (n - 1)).map (fun i : Nat => (wfib (i - 1), wfib (i - 2))) ∧
      ∀ i ∈ readsOf tr, 2 ≤ i ∧ i ≤ (n : Int) := by
  obtain ⟨tr, h, hw, ha, hr⟩ := fiboFuel_memoUpTo ord (n + 1) n 1 (n + 1) (by omega)
    (Nat.le_refl _) (by omega) (fun i _ hi => wfib_ne_neg_one i (by omega))
  rw [memoUpTo_max_one, memoUpTo_le_one _ 1 (Nat.le_refl _)] at h
  exact ⟨tr, by rw [fibo_natCast]; exact h, hw, ha, hr⟩

theorem fiboBup_val (n : Nat) (hn : n + 1 < 2147483648) :
    ∃ b : BupRun, fiboBup (n : Int) = .ok b ∧ b.val = wfib n := by
  match n, hn with
  | 0, _ => exact ⟨⟨0, [], []⟩, rfl, wfib_zero.symm⟩
  | 1, _ => exact ⟨⟨1, [], []⟩, rfl, wfib_one.symm⟩
  | m + 2, hn => exact ⟨_, fiboBup_spec (m + 2) (by omega) hn, rfl⟩

theorem fiboFuel_neg (ord : EvalOrder) (fuel : Nat) (n : Int) (dp : List Int) (h : n < 0) :
    fiboFuel ord (fuel + 1) n dp = .error .outOfBounds := by
  have h0 : ¬ (n = 0 ∨ n = 1) := by omega
  simp only [fiboFuel, if_neg h0, readAt_neg dp n h]

theorem fiboFuel_short (ord : EvalOrder) (fuel : Nat) (n : Nat) (dp : List Int) (h2 : 2 ≤ n)
    (h : dp.length ≤ n) : fiboFuel ord (fuel + 1) (n : Int) dp = .error .outOfBounds := by
  have h0 : ¬ ((n : Int) = 0 ∨ (n : Int) = 1) := by omega
  simp only [fiboFuel, if_neg h0, readAt_natCast, List.getElem?_eq_none h]

/-- The fuel of `fiboFuel` is only a bound: any two amounts above `n` give the same
outcome, so that `fibo` loses nothing by starting with `n + 1`. -/
theorem fiboFuel_fuel_irrelevant (ord : EvalOrder) :
    ∀ (f1 f2 : Nat) (n : Int) (dp : List Int), n.toNat < f1 → n.toNat < f2 →
      fiboFuel ord f1 n dp = fiboFuel ord f2 n dp := by
  intro f1
  induction f1 with
  | zero => intro f2 n dp h; omega
  | succ f1 ih =>
    intro f2 n dp h1 h2
    obtain ⟨g2, rfl⟩ : ∃ g, f2 = g + 1 := ⟨f2 - 1, by omega⟩
    by_cases h0 : n = 0 ∨ n = 1
    · rw [fiboFuel_base ord f1 n dp h0, fiboFuel_base ord g2 n dp h0]
    · cases hr : readAt dp n with
      | none => simp only [fiboFuel, if_neg h0, hr]
      | some v =>
        have hpos : 0 ≤ n := ((readAt_eq_some_iff dp n v).mp hr).1
        have e1 : ∀ dp1, fiboFuel ord f1 (n - 1) dp1 = fiboFuel ord g2 (n - 1) dp1 :=
          fun dp1 => ih g2 (n - 1) dp1 (by omega) (by omega)
        have e2 : ∀ dp1, fiboFuel ord f1 (n - 2) dp1 = fiboFuel ord g2 (n - 2) dp1 :=
          fun dp1 => ih g2 (n - 2) dp1 (by omega) (by omega)
        simp only [fiboFuel, if_neg h0, hr, e1, e2]

/-! ## The claims of the specification -/

/-- C1. For every `n` with `0 ≤ n ≤ 30`, `fibo(n, dp)` on a memo table of length
`n + 1` filled with `-1` and `fiboBup(n)` both return, and return the same value,
whichever way `fibo` orders its two recursive calls. -/
theorem fibo_eq_fiboBup_upto_30 (ord : EvalOrder) (n : Nat) (h : n ≤ 30) :
    ∃ (r : Run) (b : BupRun), fibo ord (n : Int) (freshMemo (n + 1)) = .ok r ∧
      fiboBup (n : Int) = .ok b ∧ r.val = b.val := by
  obtain ⟨r, hr, hv⟩ := fibo_fresh_val ord n (n + 1) (by omega)
  obtain ⟨b, hb, hbv⟩ := fiboBup_val n (by omega)
  exact ⟨r, b, hr, hb, by rw [hv, hbv]⟩

theorem fibo_eq_fiboBup_upto_30_witness :
    (10 ≤ 30) ∧ ∃ (r : Run) (b : BupRun),
      fibo .leftFirst ((10 : Nat) : Int) (freshMemo (10 + 1)) = .ok r ∧
      fiboBup ((10 : Nat) : Int) = .ok b ∧ r.val = b.val :=
  ⟨by decide, fibo_eq_fiboBup_upto_30 .leftFirst 10 (by decide)⟩

/-- C2. For every `n ≥ 0` whose Fibonacci number fits in an `int`, `fibo(n, dp)` on
a memo table of length `n + 1` filled with `-1` returns `Fib n`, the `n`-th number
of the reference sequence; it returns `55` for `n = 10` and `6765` for `n = 20`. -/
theorem fibo_returns_Fib (ord : EvalOrder) (n : Nat) (h : (Fib n : Int) ≤ INT_MAX) :
    (∃ r : Run, fibo ord (n : Int) (freshMemo (n + 1)) = .ok r ∧ r.val = (Fib n : Int)) ∧
    (∃ r : Run, fibo ord 10 (freshMemo 11) = .ok r ∧ r.val = 55) ∧
    (∃ r : Run, fibo ord 20 (freshMemo 21) = .ok r ∧ r.val = 6765) := by
  refine ⟨?_, ?_, ?_⟩
  · obtain ⟨r, hr, hv⟩ := fibo_fresh_val ord n (n + 1) (by omega)
    exact ⟨r, hr, by rw [hv, wfib_of_le_46 ((Fib_fits_iff n).mp h)]⟩
  · obtain ⟨r, hr, hv⟩ := fibo_fresh_val ord 10 11 (by decide)
    exact ⟨r, hr, by rw [hv]; decide⟩
  · obtain ⟨r, hr, hv⟩ := fibo_fresh_val ord 20 21 (by decide)
    exact ⟨r, hr, by rw [hv]; decide⟩

theorem fibo_returns_Fib_witness :
    ((Fib 46 : Int) ≤ INT_MAX) ∧
    (∃ r : Run, fibo .rightFirst ((46 : Nat) : Int) (freshMemo (46 + 1)) = .ok r ∧
      r.val = (Fib 46 : Int)) ∧
    (∃ r : Run, fibo .rightFirst 10 (freshMemo 11) = .ok r ∧ r.val = 55) ∧
    (∃ r : Run, fibo .rightFirst 20 (freshMemo 21) = .ok r ∧ r.val = 6765) :=
  ⟨by decide, fibo_returns_Fib .rightFirst 46 (by decide)⟩

/-- C3, as stated, fails for `fiboBup` at the largest `int`: `n + 1`, the size of
its table, is not an `int` there, and `fiboBup(2147483647)` returns no value. -/
theorem fiboBup_recurrence_fails_at_INT_MAX :
    ¬ ∃ a b c : BupRun, fiboBup 2147483647 = .ok a ∧ fiboBup (2147483647 - 1) = .ok b ∧
      fiboBup (2147483647 - 2) = .ok c ∧ a.val = addInt b.val c.val := by
  have h : fiboBup 2147483647 = .error .negativeArraySize := rfl
  rintro ⟨a, b, c, ha, _⟩
  rw [h] at ha
  exact absurd ha (by simp)

/-- C3, amended. For every `n ≥ 2` such that `n + 1` is an `int`,
`fiboBup(n) == fiboBup(n-1) + fiboBup(n-2)`, and for every `n ≥ 2`
`fibo(n, fresh memo of length n+1) == fibo(n-1, fresh memo of length n) +
fibo(n-2, fresh memo of length n-1)`, where all calls return and `+` is the
addition of `int`s. -/
theorem recurrence_law (ord : EvalOrder) (n : Nat) (h2 : 2 ≤ n) :
    ((n : Int) + 1 ≤ INT_MAX →
      ∃ a b c : BupRun, fiboBup (n : Int) = .ok a ∧ fiboBup ((n : Int) - 1) = .ok b ∧
        fiboBup ((n : Int) - 2) = .ok c ∧ a.val = addInt b.val c.val) ∧
    (∃ r s t : Run, fibo ord (n : Int) (freshMemo (n + 1)) = .ok r ∧
      fibo ord ((n : Int) - 1) (freshMemo n) = .ok s ∧
      fibo ord ((n : Int) - 2) (freshMemo (n - 1)) = .ok t ∧ r.val = addInt s.val t.val) := by
  obtain ⟨m, rfl⟩ : ∃ m, n = m + 2 := ⟨n - 2, by omega⟩
  have e1 : ((m + 2 : Nat) : Int) - 1 = ((m + 1 : Nat) : Int) := by omega
  have e2 : ((m + 2 : Nat) : Int) - 2 = ((m : Nat) : Int) := by omega
  rw [e1, e2]
  constructor
  · intro hn
    unfold INT_MAX at hn
    obtain ⟨a, ha, hav⟩ := fiboBup_val (m + 2) (by omega)
    obtain ⟨b, hb, hbv⟩ := fiboBup_val (m + 1) (by omega)
    obtain ⟨c, hc, hcv⟩ := fiboBup_val m (by omega)
    exact ⟨a, b, c, ha, hb, hc, by rw [hav, hbv, hcv, wfib_add_two]⟩
  · obtain ⟨r, hr, hrv⟩ := fibo_fresh_val ord (m + 2) (m + 2 + 1) (by omega)
    obtain ⟨s, hs, hsv⟩ := fibo_fresh_val ord (m + 1) (m + 2) (by omega)
    obtain ⟨t, ht, htv⟩ := fibo_fresh_val ord m (m + 2 - 1) (by omega)
    exact ⟨r, s, t, hr, hs, ht, by rw [hrv, hsv, htv, wfib_add_two]⟩

theorem recurrence_law_witness :
    (2 ≤ 47) ∧ (((47 : Nat) : Int) + 1 ≤ INT_MAX) ∧
    (∃ a b c : BupRun, fiboBup ((47 : Nat) : Int) = .ok a ∧
      fiboBup (((47 : Nat) : Int) - 1) = .ok b ∧
      fiboBup (((47 : Nat) : Int) - 2) = .ok c ∧ a.val = addInt b.val c.val) ∧
    (∃ r s t : Run, fibo .leftFirst ((47 : Nat) : Int) (freshMemo (47 + 1)) = .ok r ∧
      fibo .leftFirst (((47 : Nat) : Int) - 1) (freshMemo 47) = .ok s ∧
      fibo .leftFirst (((47 : Nat) : Int) - 2) (freshMemo (47 - 1)) = .ok t ∧
      r.val = addInt s.val t.val) :=
  ⟨by decide, by decide, (recurrence_law .leftFirst 47 (by decide)).1 (by decide),
    (recurrence_law .leftFirst 47 (by decide)).2⟩

/-- C4, as stated, fails at `n = 46`: the `int` addition that yields the value for
`47` wraps, and both `fiboBup(47) < fiboBup(46)` and `fibo(47, ..) < fibo(46, ..)`. -/
theorem monotone_fails_at_46 :
    (∃ a b : BupRun, fiboBup 47 = .ok a ∧ fiboBup 46 = .ok b ∧ a.val < b.val) ∧
    (∃ r s : Run, fibo .leftFirst 47 (freshMemo 48) = .ok r ∧
      fibo .leftFirst 46 (freshMemo 47) = .ok s ∧ r.val < s.val) := by
  constructor
  · obtain ⟨a, ha, hav⟩ := fiboBup_val 47 (by decide)
    obtain ⟨b, hb, hbv⟩ := fiboBup_val 46 (by decide)
    exact ⟨a, b, ha, hb, by rw [hav, hbv]; decide⟩
  · obtain ⟨r, hr, hrv⟩ := fibo_fresh_val .leftFirst 47 48 (by decide)
    obtain ⟨s, hs, hsv⟩ := fibo_fresh_val .leftFirst 46 47 (by decide)
    exact ⟨r, s, hr, hs, by rw [hrv, hsv]; decide⟩

/-- C4, amended. For every `n` with `0 ≤ n ≤ 45`, that is as long as `Fib (n+1)`
fits in an `int`, the returned `int` values are monotone:
`fiboBup(n+1) ≥ fiboBup(n)` and `fibo(n+1, fresh memo) ≥ fibo(n, fresh memo)`. -/
theorem monotone_upto_45 (ord : EvalOrder) (n : Nat) (h : n ≤ 45) :
    (∃ a b : BupRun, fiboBup ((n : Int) + 1) = .ok a ∧ fiboBup (n : Int) = .ok b ∧
      a.val ≥ b.val) ∧
    (∃ r s : Run, fibo ord ((n : Int) + 1) (freshMemo (n + 2)) = .ok r ∧
      fibo ord (n : Int) (freshMemo (n + 1)) = .ok s ∧ r.val ≥ s.val) := by
  have e : (n : Int) + 1 = ((n + 1 : Nat) : Int) := by omega
  have hm : wfib (n + 1) ≥ wfib n := by
    rw [wfib_of_le_46 (by omega : n + 1 ≤ 46), wfib_of_le_46 (by omega : n ≤ 46)]
    exact_mod_cast Fib_mono_succ n
  rw [e]
  constructor
  · obtain ⟨a, ha, hav⟩ := fiboBup_val (n + 1) (by omega)
    obtain ⟨b, hb, hbv⟩ := fiboBup_val n (by omega)
    exact ⟨a, b, ha, hb, by rw [hav, hbv]; exact hm⟩
  · obtain ⟨r, hr, hrv⟩ := fibo_fresh_val ord (n + 1) (n + 2) (by omega)
    obtain ⟨s, hs, hsv⟩ := fibo_fresh_val ord n (n + 1) (by omega)
    exact ⟨r, s, hr, hs, by rw [hrv, hsv]; exact hm⟩

theorem monotone_upto_45_witness :
    (45 ≤ 45) ∧
    (∃ a b : BupRun, fiboBup (((45 : Nat) : Int) + 1) = .ok a ∧
      fiboBup ((45 : Nat) : Int) = .ok b ∧ a.val ≥ b.val) ∧
    (∃ r s : Run, fibo .rightFirst (((45 : Nat) : Int) + 1) (freshMemo (45 + 2)) = .ok r ∧
      fibo .rightFirst ((45 : Nat) : Int) (freshMemo (45 + 1)) = .ok s ∧ r.val ≥ s.val) :=
  ⟨by decide, monotone_upto_45 .rightFirst 45 (by decide)⟩

/-- C5, as stated, fails: for `n = -1` neither function fails with
`InvalidArgument`. -/
theorem negative_input_not_invalidArgument :
    fibo .leftFirst (-1) (freshMemo 0) ≠ .error .invalidArgument ∧
    fibo .rightFirst (-1) (freshMemo 0) ≠ .error .invalidArgument ∧
    fiboBup (-1) ≠ .error .invalidArgument := by
  have e1 : fibo .leftFirst (-1) (freshMemo 0) = .error .outOfBounds := rfl
  have e2 : fibo .rightFirst (-1) (freshMemo 0) = .error .outOfBounds := rfl
  have e3 : fiboBup (-1) = .error .outOfBounds := rfl
  rw [e1, e2, e3]
  simp

/-- C5, amended. For `n = -1` neither function returns a value and neither
validates its argument: `fibo`, on the memo table of length `0` that `main`
builds, reads `dp[-1]`, and `fiboBup` stores to `dp2[0]` in a table of length `0`;
both are accesses outside the table. -/
theorem negative_input_out_of_bounds (ord : EvalOrder) :
    fibo ord (-1) (freshMemo 0) = .error .outOfBounds ∧
    fiboBup (-1) = .error .outOfBounds := by
  cases ord <;> exact ⟨rfl, rfl⟩

/-- C6, as stated, fails at `n = 47`: the fresh table satisfies the invariant, and
after the call the cell `47` holds `-1323752223`, which is neither `-1` nor
`Fib 47`. -/
theorem memo_invariant_fails_at_47 :
    MemoInv (freshMemo 48) ∧
    ∃ r : Run, fibo .leftFirst 47 (freshMemo 48) = .ok r ∧ ¬ MemoInv r.dp := by
  refine ⟨MemoInv_fresh 48, ?_⟩
  obtain ⟨tr, h, _⟩ := fibo_fresh .leftFirst 47 (by decide)
  refine ⟨_, h, ?_⟩
  intro hinv
  have h47 := hinv 47 (wfib 47) (by rw [memoUpTo_getElem? _ _ _ (by decide)]; rfl)
  revert h47
  decide

/-- C6, amended. For a call `fibo(n, dp)` with `n ≤ 46`, that is with `Fib n` in
the `int` range: if before the call every cell `i` of the memo table holds `-1` or
`Fib i`, then the call returns whenever `0 ≤ n` and the table is longer than `n`,
and whenever it returns every cell `i` holds `-1` or `Fib i` after it and every
cell that was set before it holds the same value after it. -/
theorem memo_invariant (ord : EvalOrder) (n : Int) (dp : List Int) (hn : n ≤ 46)
    (hinv : MemoInv dp) :
    (0 ≤ n → n < dp.length → ∃ r : Run, fibo ord n dp = .ok r) ∧
    ∀ r : Run, fibo ord n dp = .ok r →
      MemoInv r.dp ∧ ∀ (i : Nat) (v : Int), dp[i]? = some v → v ≠ -1 → r.dp[i]? = some v := by
  by_cases hneg : n < 0
  · refine ⟨fun h => by omega, fun r hr => ?_⟩
    unfold fibo at hr
    rw [fiboFuel_neg ord _ n dp hneg] at hr
    exact absurd hr (by simp)
  · obtain ⟨k, rfl⟩ : ∃ k : Nat, n = (k : Int) := ⟨n.toNat, by omega⟩
    have hk : k ≤ 46 := by omega
    rw [fibo_natCast]
    by_cases hlen : k < dp.length
    · have hval : ValidUpTo k dp := by
        intro i hi v hv
        rw [wfib_of_le_46 (by omega : i ≤ 46)]
        exact hinv i v hv
      obtain ⟨r0, h0, _, _, hvalid, hframe⟩ := fiboFuel_valid ord (k + 1) k dp (by omega) hlen hval
      refine ⟨fun _ _ => ⟨r0, h0⟩, fun r hr => ?_⟩
      rw [h0] at hr
      obtain rfl : r0 = r := Except.ok.inj hr
      constructor
      · intro i v hv
        by_cases hi : i ≤ k
        · have := hvalid i hi v hv
          rwa [wfib_of_le_46 (by omega : i ≤ 46)] at this
        · rw [hframe i (Or.inl (by omega))] at hv
          exact hinv i v hv
      · intro i v hv hne
        rw [hframe i (Or.inr (by rw [hv]; simpa using hne)), hv]
    · refine ⟨fun _ h => by omega, fun r hr => ?_⟩
      by_cases h2 : 2 ≤ k
      · rw [fiboFuel_short ord k k dp h2 (by omega)] at hr
        exact absurd hr (by simp)
      · rw [fiboFuel_base ord k _ dp (by omega)] at hr
        obtain rfl := Except.ok.inj hr
        exact ⟨hinv, fun i v hv _ => hv⟩

theorem memo_invariant_witness :
    ((5 : Int) ≤ 46) ∧ MemoInv [-1, -1, 1, -1, 3, -1] ∧
    (∃ r : Run, fibo .rightFirst 5 [-1, -1, 1, -1, 3, -1] = .ok r) ∧
    ∀ r : Run, fibo .rightFirst 5 [-1, -1, 1, -1, 3, -1] = .ok r →
      MemoInv r.dp ∧ ∀ (i : Nat) (v : Int),
        ([-1, -1, 1, -1, 3, -1] : List Int)[i]? = some v → v ≠ -1 → r.dp[i]? = some v :=
  have hinv : MemoInv [-1, -1, 1, -1, 3, -1] := by
    intro i v h
    rcases i with _ | _ | _ | _ | _ | _ | i <;> simp at h <;> subst h <;> decide
  ⟨by decide, hinv,
    (memo_invariant .rightFirst 5 [-1, -1, 1, -1, 3, -1] (by decide) hinv).1
      (by decide) (by decide),
    (memo_invariant .rightFirst 5 [-1, -1, 1, -1, 3, -1] (by decide) hinv).2⟩

/-- C7. For every `int` `n ≥ 0`, the call `fibo(n, dp)` on a memo table of length
`n + 1` filled with `-1` returns, stores in each cell at most once, and performs
exactly `n - 1` additions for `n ≥ 2` and none for `n ≤ 1`. -/
theorem fibo_linear_work (ord : EvalOrder) (n : Nat) (hn : (n : Int) ≤ INT_MAX) :
    ∃ r : Run, fibo ord (n : Int) (freshMemo (n + 1)) = .ok r ∧
      ((writesOf r.trace).map Prod.fst).Nodup ∧
      (addsOf r.trace).length = if 2 ≤ n then n - 1 else 0 := by
  unfold INT_MAX at hn
  obtain ⟨tr, h, hw, ha, _⟩ := fibo_fresh ord n (by omega)
  refine ⟨_, h, ?_, ?_⟩
  · simp only [hw, List.map_map]
    exact (List.nodup_range' 2 (n - 1)).map (fun a b hab => by simpa using hab)
  · simp only [ha, List.length_map, List.length_range']
    split <;> omega

theorem fibo_linear_work_witness :
    (((20 : Nat) : Int) ≤ INT_MAX) ∧
    ∃ r : Run, fibo .leftFirst ((20 : Nat) : Int) (freshMemo (20 + 1)) = .ok r ∧
      ((writesOf r.trace).map Prod.fst).Nodup ∧
      (addsOf r.trace).length = if 2 ≤ 20 then 20 - 1 else 0 :=
  ⟨by decide, fibo_linear_work .leftFirst 20 (by decide)⟩

/-- C8, as stated, fails at `n = 47`: the value stored in the cell `47` is
negative. -/
theorem stored_value_negative_at_47 :
    ∃ r : Run, fibo .leftFirst 47 (freshMemo 48) = .ok r ∧
      ∃ p ∈ writesOf r.trace, p.2 < 0 := by
  obtain ⟨tr, h, hw, _⟩ := fibo_fresh .leftFirst 47 (by decide)
  refine ⟨_, h, ((47 : Int), wfib 47), ?_, by decide⟩
  simp only [hw, List.mem_map]
  exact ⟨47, by decide, rfl⟩

/-- C8, amended. For every `int` `n ≥ 0`, no value that `fibo(n, fresh memo)`
stores in the memo table equals the sentinel `-1`, so a set cell is never taken
for an unset one; and for `n ≤ 46` every stored value is non-negative. -/
theorem stored_values_not_sentinel (ord : EvalOrder) (n : Nat) (hn : (n : Int) ≤ INT_MAX) :
    ∃ r : Run, fibo ord (n : Int) (freshMemo (n + 1)) = .ok r ∧
      (∀ p ∈ writesOf r.trace, p.2 ≠ -1) ∧
      (n ≤ 46 → ∀ p ∈ writesOf r.trace, 0 ≤ p.2) := by
  unfold INT_MAX at hn
  obtain ⟨tr, h, hw, _⟩ := fibo_fresh ord n (by omega)
  refine ⟨_, h, ?_, ?_⟩
  · intro p hp
    simp only [hw, List.mem_map, List.mem_range'_1] at hp
    obtain ⟨i, hi, rfl⟩ := hp
    exact wfib_ne_neg_one i (by omega)
  · intro h46 p hp
    simp only [hw, List.mem_map, List.mem_range'_1] at hp
    obtain ⟨i, hi, rfl⟩ := hp
    show 0 ≤ wfib i
    rw [wfib_of_le_46 (by omega)]
    exact Int.ofNat_nonneg _

theorem stored_values_not_sentinel_witness :
    (((46 : Nat) : Int) ≤ INT_MAX) ∧ (46 ≤ 46) ∧
    ∃ r : Run, fibo .leftFirst ((46 : Nat) : Int) (freshMemo (46 + 1)) = .ok r ∧
      (∀ p ∈ writesOf r.trace, p.2 ≠ -1) ∧ (∀ p ∈ writesOf r.trace, 0 ≤ p.2) :=
  ⟨by decide, by decide,
    (stored_values_not_sentinel .leftFirst 46 (by decide)).imp
      (fun _ h => ⟨h.1, h.2.1, h.2.2 (by decide)⟩)⟩

/-- C9. Base cases: `fiboBup(0) == 0` and `fiboBup(1) == 1`, and for `n` in
`{0, 1}` the call `fibo(n, dp)` returns `n` for every memo table `dp`, whatever its
contents and its length, without touching the table. -/
theorem base_cases :
    fiboBup 0 = .ok ⟨0, [], []⟩ ∧ fiboBup 1 = .ok ⟨1, [], []⟩ ∧
    ∀ (ord : EvalOrder) (dp : List Int),
      fibo ord 0 dp = .ok ⟨0, dp, []⟩ ∧ fibo ord 1 dp = .ok ⟨1, dp, []⟩ :=
  ⟨rfl, rfl, fun _ _ => ⟨rfl, rfl⟩⟩

/-- C10. For every `int` `n ≥ 0`, two calls of `fibo` with the same `n`, each on its
own memo table of length `n + 1` filled with `-1`, both return, return the same
value and leave the two tables in the same final state, even when the two calls
order their recursive calls differently. -/
theorem fibo_deterministic (ord1 ord2 : EvalOrder) (n : Nat) (dp1 dp2 : List Int)
    (hn : (n : Int) ≤ INT_MAX)
    (hl1 : dp1.length = n + 1) (hf1 : ∀ x ∈ dp1, x = -1)
    (hl2 : dp2.length = n + 1) (hf2 : ∀ x ∈ dp2, x = -1) :
    ∃ (r1 r2 : Run), fibo ord1 (n : Int) dp1 = .ok r1 ∧ fibo ord2 (n : Int) dp2 = .ok r2 ∧
      r1.val = r2.val ∧ r1.dp = r2.dp := by
  unfold INT_MAX at hn
  rw [freshMemo_of_all dp1 (n + 1) hl1 hf1, freshMemo_of_all dp2 (n + 1) hl2 hf2]
  obtain ⟨t1, h1, _⟩ := fibo_fresh ord1 n (by omega)
  obtain ⟨t2, h2, _⟩ := fibo_fresh ord2 n (by omega)
  exact ⟨_, _, h1, h2, rfl, rfl⟩

theorem fibo_deterministic_witness :
    (((3 : Nat) : Int) ≤ INT_MAX) ∧
    (([-1, -1, -1, -1] : List Int).length = 3 + 1) ∧ (∀ x ∈ ([-1, -1, -1, -1] : List Int), x = -1) ∧
    ∃ (r1 r2 : Run), fibo .leftFirst ((3 : Nat) : Int) [-1, -1, -1, -1] = .ok r1 ∧
      fibo .rightFirst ((3 : Nat) : Int) [-1, -1, -1, -1] = .ok r2 ∧
      r1.val = r2.val ∧ r1.dp = r2.dp :=
  ⟨by decide, by decide, by decide,
    fibo_deterministic .leftFirst .rightFirst 3 [-1, -1, -1, -1] [-1, -1, -1, -1]
      (by decide) (by decide) (by decide) (by decide) (by decide)⟩

/-! ## `fibo` on a table of arbitrary contents -/

@[simp] theorem accessesOf_nil : accessesOf [] = [] := rfl

@[simp] theorem accessesOf_read (i : Int) (tr : List Event) :
    accessesOf (.read i :: tr) = i :: accessesOf tr := rfl

@[simp] theorem accessesOf_add (a b : Int) (tr : List Event) :
    accessesOf (.add a b :: tr) = accessesOf tr := rfl

@[simp] theorem accessesOf_write (i v : Int) (tr : List Event) :
    accessesOf (.write i v :: tr) = i :: accessesOf tr := rfl

theorem accessesOf_append (a b : List Event) :
    accessesOf (a ++ b) = accessesOf a ++ accessesOf b := by
  induction a with
  | nil => rfl
  | cons e a ih => cases e <;> simp [ih]

/-- Whatever the table holds, as long as it is longer than `n`: `fibo(n, dp)`
returns with at most `fuel` nested activations for every `fuel` above `n`, keeps
the length of the table, and touches cells between `2` and `n` only. -/
theorem fiboFuel_total (ord : EvalOrder) :
    ∀ (fuel n : Nat) (dp : List Int), n < fuel → n < dp.length →
      ∃ r : Run, fiboFuel ord fuel (n : Int) dp = .ok r ∧ r.dp.length = dp.length ∧
        ∀ i ∈ accessesOf r.trace, 2 ≤ i ∧ i ≤ (n : Int) := by
  intro fuel
  induction fuel with
  | zero => intro n dp h; omega
  | succ fuel ih =>
    intro n dp hf hlen
    match n, hf, hlen with
    | 0, _, _ =>
      exact ⟨⟨0, dp, []⟩, fiboFuel_base ord fuel _ dp (Or.inl rfl), rfl, by simp⟩
    | 1, _, _ =>
      exact ⟨⟨1, dp, []⟩, fiboFuel_base ord fuel _ dp (Or.inr rfl), rfl, by simp⟩
    | m + 2, hf, hlen =>
      obtain ⟨v, hr⟩ : ∃ v, dp[m + 2]? = some v := ⟨dp[m + 2], List.getElem?_eq_getElem hlen⟩
      by_cases hv1 : v = -1
      · subst hv1
        cases ord with
        | leftFirst =>
          obtain ⟨r1, h1, hlen1, hacc1⟩ := ih (m + 1) dp (by omega) (by omega)
          obtain ⟨r2, h2, hlen2, hacc2⟩ := ih m r1.dp (by omega) (by omega)
          rw [fiboFuel_miss_left fuel m dp hr r1 r2 h1 h2,
            storeSum_natCast _ _ _ _ _ (by omega)]
          refine ⟨_, rfl, by simp [hlen2, hlen1], ?_⟩
          intro i hi
          simp only [accessesOf_append, accessesOf_read, accessesOf_add, accessesOf_write,
            accessesOf_nil, List.mem_append, List.mem_singleton, List.mem_cons,
            List.not_mem_nil, or_false] at hi
          rcases hi with ((hi | hi) | hi) | hi
          · subst hi; omega
          · have := hacc1 i hi; omega
          · have := hacc2 i hi; omega
          · subst hi; omega
        | rightFirst =>
          obtain ⟨r2, h2, hlen2, hacc2⟩ := ih m dp (by omega) (by omega)
          obtain ⟨r1, h1, hlen1, hacc1⟩ := ih (m + 1) r2.dp (by omega) (by omega)
          rw [fiboFuel_miss_right fuel m dp hr r1 r2 h2 h1,
            storeSum_natCast _ _ _ _ _ (by omega)]
          refine ⟨_, rfl, by simp [hlen2, hlen1], ?_⟩
          intro i hi
          simp only [accessesOf_append, accessesOf_read, accessesOf_add, accessesOf_write,
            accessesOf_nil, List.mem_append, List.mem_singleton, List.mem_cons,
            List.not_mem_nil, or_false] at hi
          rcases hi with ((hi | hi) | hi) | hi
          · subst hi; omega
          · have := hacc2 i hi; omega
          · have := hacc1 i hi; omega
          · subst hi; omega
      · rw [fiboFuel_hit ord fuel m dp v hr hv1]
        refine ⟨_, rfl, rfl, ?_⟩
        intro i hi
        simp only [accessesOf_read, accessesOf_nil, List.mem_cons, List.not_mem_nil,
          or_false, or_self] at hi
        subst hi
        omega

/-- With its operands evaluated left to right, `fibo(n, dp)` on a fresh table does
not complete within `n - 1` nested activations: the nesting grows with `n`. -/
theorem fiboFuel_fresh_needs (len : Nat) :
    ∀ k : Nat, k + 1 < len →
      fiboFuel .leftFirst k ((k + 1 : Nat) : Int) (freshMemo len) = .error .outOfFuel := by
  intro k
  induction k with
  | zero => intro _; rfl
  | succ k ih =>
    intro hlen
    have h0 : ¬ ((((k + 1 + 1 : Nat) : Int) = 0) ∨ (((k + 1 + 1 : Nat) : Int) = 1)) := by omega
    have e1 : ((k + 1 + 1 : Nat) : Int) - 1 = ((k + 1 : Nat) : Int) := by omega
    have hr : (freshMemo len)[k + 1 + 1]? = some (-1) := by
      simp [freshMemo, List.getElem?_replicate, hlen]
    simp only [fiboFuel, if_neg h0, readAt_natCast, hr, e1, ih (by omega)]
    simp

/-! ## More on the traces of `fiboBup` and on longer fresh tables -/

theorem loopTrace_nil (i n : Nat) (h : n < i) : loopTrace i n = [] := by
  simp [loopTrace, show n + 1 - i = 0 by omega]

theorem accessesOf_loopTrace (n : Nat) :
    ∀ (d i : Nat), n + 1 - i = d → 2 ≤ i →
      ∀ x ∈ accessesOf (loopTrace i n), (i : Int) - 2 ≤ x ∧ x ≤ (n : Int) := by
  intro d
  induction d with
  | zero =>
    intro i hd _ x hx
    rw [loopTrace_nil i n (by omega)] at hx
    simp at hx
  | succ d ih =>
    intro i hd h2 x hx
    rw [loopTrace_step i n (by omega)] at hx
    simp only [List.cons_append, List.nil_append, accessesOf_read, accessesOf_add,
      accessesOf_write, List.mem_cons] at hx
    rcases hx with hx | hx | hx | hx
    · subst hx; omega
    · subst hx; omega
    · subst hx; omega
    · have := ih (i + 1) (by omega) (by omega) x hx
      omega

theorem addsOf_loopTrace (n : Nat) :
    ∀ (d i : Nat), n + 1 - i = d →
      addsOf (loopTrace i n)
        = (List.range' i (n + 1 - i)).map (fun k : Nat => (wfib (k - 1), wfib (k - 2))) := by
  intro d
  induction d with
  | zero =>
    intro i hd
    rw [loopTrace_nil i n (by omega), show n + 1 - i = 0 by omega]
    rfl
  | succ d ih =>
    intro i hd
    rw [loopTrace_step i n (by omega)]
    simp only [List.cons_append, List.nil_append, addsOf_read, addsOf_add, addsOf_write]
    rw [ih (i + 1) (by omega), show n + 1 - i = (n + 1 - (i + 1)) + 1 by omega,
      List.range'_succ]
    rfl

theorem readsAfterWrites_loopTrace (n : Nat) :
    ∀ (d i : Nat) (w : List Int), n + 1 - i = d → 2 ≤ i → i ≤ n + 1 →
      (∀ k : Nat, k < i → (k : Int) ∈ w) →
      readsAfterWrites w (loopTrace i n ++ [.read (n : Int)]) = true := by
  intro d
  induction d with
  | zero =>
    intro i w hd _ hi hw
    rw [loopTrace_nil i n (by omega)]
    simp [readsAfterWrites, hw n (by omega)]
  | succ d ih =>
    intro i w hd h2 hi hw
    obtain ⟨m, rfl⟩ : ∃ m, i = m + 2 := ⟨i - 2, by omega⟩
    have c1 : ((m + 2 : Nat) : Int) - 1 = ((m + 1 : Nat) : Int) := by omega
    have c2 : ((m + 2 : Nat) : Int) - 2 = ((m : Nat) : Int) := by omega
    rw [loopTrace_step (m + 2) n (by omega), c1, c2]
    simp only [List.cons_append, List.nil_append, readsAfterWrites, hw (m + 1) (by omega),
      hw m (by omega), decide_True, Bool.true_and]
    apply ih (m + 2 + 1) _ (by omega) (by omega) (by omega)
    intro k hk
    by_cases hkm : k = m + 2
    · subst hkm; exact List.mem_cons_self _ _
    · exact List.mem_cons_of_mem _ (hw k (by omega))

/-- The outcome of `fibo(n, dp)` on a fresh table of any length above `n`, for an
index an `int` can hold. -/
theorem fibo_fresh_len (ord : EvalOrder) (n len : Nat) (hn : n < 6442450942) (hlen : n < len) :
    ∃ tr : List Event,
      fibo ord (n : Int) (freshMemo len) = .ok ⟨wfib n, memoUpTo len n, tr⟩ ∧
      writesOf tr = (List.range' 2 (n - 1)).map (fun i : Nat => ((i : Int), wfib i)) ∧
      addsOf tr = (List.range' 2 (n - 1)).map (fun i : Nat => (wfib (i - 1), wfib (i - 2))) := by
  obtain ⟨tr, h, hw, ha, _⟩ := fiboFuel_memoUpTo ord (n + 1) n 1 len (by omega)
    (Nat.le_refl _) hlen (fun i _ hi => wfib_ne_neg_one i (by omega))
  rw [memoUpTo_max_one, memoUpTo_le_one _ 1 (Nat.le_refl _)] at h
  exact ⟨tr, by rw [fibo_natCast]; exact h, hw, ha⟩

/-- The additions that compute the Fibonacci numbers up to index `46` do not
overflow. -/
theorem sumFits_wfib (i : Nat) (h2 : 2 ≤ i) (h : i ≤ 46) :
    sumFits (wfib (i - 1), wfib (i - 2)) := by
  obtain ⟨m, rfl⟩ : ∃ m, i = m + 2 := ⟨i - 2, by omega⟩
  have hb : Fib (m + 2) ≤ Fib 46 := Fib_mono h
  rw [Fib_46, Fib_add_two] at hb
  unfold sumFits INT_MAX
  rw [show m + 2 - 1 = m + 1 by omega, show m + 2 - 2 = m by omega,
    wfib_of_le_46 (by omega : m + 1 ≤ 46), wfib_of_le_46 (by omega : m ≤ 46)]
  constructor <;> simp only <;> omega

/-! ## The claims of the specification, continued -/

/-- C11. For every `n ≥ 2` whose Fibonacci number fits in an `int`, `fiboBup(n)`
returns with a table of `n + 1` cells in which `table[0] = 0`, `table[1] = 1` and
`table[i] = table[i-1] + table[i-2] = Fib i` for every `i` with `2 ≤ i ≤ n`; the
value returned is `table[n] = Fib n`; and every read is of a cell that an earlier
store filled. -/
theorem fiboBup_table (n : Nat) (h2 : 2 ≤ n) (hfit : (Fib n : Int) ≤ INT_MAX) :
    ∃ b : BupRun, fiboBup (n : Int) = .ok b ∧ b.table.length = n + 1 ∧
      b.table[0]? = some (some 0) ∧ b.table[1]? = some (some 1) ∧
      (∀ i : Nat, 2 ≤ i → i ≤ n → ∃ x y : Int,
        b.table[i - 1]? = some (some x) ∧ b.table[i - 2]? = some (some y) ∧
        b.table[i]? = some (some (x + y)) ∧ x + y = (Fib i : Int)) ∧
      b.table[n]? = some (some b.val) ∧ b.val = (Fib n : Int) ∧
      readsAfterWrites [] b.trace = true := by
  have h46 : n ≤ 46 := (Fib_fits_iff n).mp hfit
  refine ⟨_, fiboBup_spec n h2 (by omega), bupTable_length _ _, ?_, ?_, ?_, ?_, ?_, ?_⟩
  · rw [bupTable_getElem? _ _ _ (by omega), if_pos (by omega), wfib_zero]
  · rw [bupTable_getElem? _ _ _ (by omega), if_pos (by omega), wfib_one]
  · intro i hi2 hin
    obtain ⟨m, rfl⟩ : ∃ m, i = m + 2 := ⟨i - 2, by omega⟩
    refine ⟨wfib (m + 1), wfib m, ?_, ?_, ?_, ?_⟩
    · rw [show m + 2 - 1 = m + 1 by omega, bupTable_getElem? _ _ _ (by omega),
        if_pos (by omega)]
    · rw [show m + 2 - 2 = m by omega, bupTable_getElem? _ _ _ (by omega), if_pos (by omega)]
    · rw [bupTable_getElem? _ _ _ (by omega), if_pos (by omega),
        wfib_of_le_46 (by omega : m + 2 ≤ 46), wfib_of_le_46 (by omega : m + 1 ≤ 46),
        wfib_of_le_46 (by omega : m ≤ 46), Fib_add_two]
      push_cast
      rfl
    · rw [wfib_of_le_46 (by omega : m + 1 ≤ 46), wfib_of_le_46 (by omega : m ≤ 46),
        Fib_add_two]
      push_cast
      rfl
  · show (bupTable (n + 1) (n + 1))[n]? = some (some (wfib n))
    rw [bupTable_getElem? _ _ _ (by omega), if_pos (by omega)]
  · exact wfib_of_le_46 h46
  · show readsAfterWrites [] ([.write 0 0, .write 1 1] ++ loopTrace 2 n ++ [.read (n : Int)])
      = true
    rw [List.append_assoc]
    simp only [List.cons_append, List.nil_append, readsAfterWrites]
    apply readsAfterWrites_loopTrace n (n + 1 - 2) 2 _ rfl (by omega) (by omega)
    intro k hk
    interval_cases k <;> simp

theorem fiboBup_table_witness :
    (2 ≤ 46) ∧ ((Fib 46 : Int) ≤ INT_MAX) ∧
    ∃ b : BupRun, fiboBup ((46 : Nat) : Int) = .ok b ∧ b.table.length = 46 + 1 ∧
      b.table[0]? = some (some 0) ∧ b.table[1]? = some (some 1) ∧
      (∀ i : Nat, 2 ≤ i → i ≤ 46 → ∃ x y : Int,
        b.table[i - 1]? = some (some x) ∧ b.table[i - 2]? = some (some y) ∧
        b.table[i]? = some (some (x + y)) ∧ x + y = (Fib i : Int)) ∧
      b.table[46]? = some (some b.val) ∧ b.val = (Fib 46 : Int) ∧
      readsAfterWrites [] b.trace = true :=
  ⟨by decide, by decide, fiboBup_table 46 (by decide) (by decide)⟩

/-- C12, as stated, fails for `fiboBup` at the largest `int`: the size `n + 1` of
its table is not an `int`, the declaration of the table faults and the call
completes no access at all. -/
theorem fiboBup_no_table_at_INT_MAX :
    fiboBup 2147483647 = .error .negativeArraySize ∧
    ¬ ∃ b : BupRun, fiboBup 2147483647 = .ok b ∧ b.table.length = 2147483647 + 1 ∧
      ∀ i ∈ accessesOf b.trace, 0 ≤ i ∧ i ≤ 2147483647 := by
  have h : fiboBup 2147483647 = .error .negativeArraySize := rfl
  refine ⟨h, ?_⟩
  rintro ⟨b, hb, _⟩
  rw [h] at hb
  exact absurd hb (by simp)

/-- C12, amended. For every `n ≥ 0` and every memo table of length at least
`n + 1`, whatever it holds, `fibo(n, dp)` returns and every cell it reads or stores
to has an index within `0..n`; and for every `n ≥ 0` such that `n + 1` is an `int`,
`fiboBup(n)` returns and every cell it reads or stores to, in its table of length
`n + 1`, has an index within `0..n`. No access is out of bounds. -/
theorem accesses_in_bounds (ord : EvalOrder) (n : Nat) (dp : List Int)
    (hlen : n + 1 ≤ dp.length) :
    (∃ r : Run, fibo ord (n : Int) dp = .ok r ∧
      ∀ i ∈ accessesOf r.trace, 0 ≤ i ∧ i ≤ (n : Int)) ∧
    ((n : Int) + 1 ≤ INT_MAX →
      ∃ b : BupRun, fiboBup (n : Int) = .ok b ∧ (2 ≤ n → b.table.length = n + 1) ∧
        ∀ i ∈ accessesOf b.trace, 0 ≤ i ∧ i ≤ (n : Int)) := by
  constructor
  · obtain ⟨r, hr, _, hacc⟩ := fiboFuel_total ord (n + 1) n dp (by omega) (by omega)
    refine ⟨r, by rw [fibo_natCast]; exact hr, fun i hi => ?_⟩
    have := hacc i hi
    omega
  · intro hn
    unfold INT_MAX at hn
    match n, hn with
    | 0, _ => exact ⟨⟨0, [], []⟩, rfl, fun h => by omega, by simp⟩
    | 1, _ => exact ⟨⟨1, [], []⟩, rfl, fun h => by omega, by simp⟩
    | m + 2, hn =>
      refine ⟨_, fiboBup_spec (m + 2) (by omega) (by omega), fun _ => bupTable_length _ _, ?_⟩
      intro i hi
      simp only [accessesOf_append, accessesOf_write, accessesOf_read, accessesOf_nil,
        List.mem_append, List.mem_cons, List.not_mem_nil, or_false] at hi
      rcases hi with ((hi | hi) | hi) | hi
      · subst hi; omega
      · subst hi; omega
      · have := accessesOf_loopTrace (m + 2) (m + 2 + 1 - 2) 2 rfl (by omega) i hi
        omega
      · subst hi; omega

theorem accesses_in_bounds_witness :
    (5 + 1 ≤ ([7, -1, -1, 9, -1, -1, 0] : List Int).length) ∧
    (((5 : Nat) : Int) + 1 ≤ INT_MAX) ∧
    (∃ r : Run, fibo .leftFirst ((5 : Nat) : Int) [7, -1, -1, 9, -1, -1, 0] = .ok r ∧
      ∀ i ∈ accessesOf r.trace, 0 ≤ i ∧ i ≤ ((5 : Nat) : Int)) ∧
    ∃ b : BupRun, fiboBup ((5 : Nat) : Int) = .ok b ∧ (2 ≤ 5 → b.table.length = 5 + 1) ∧
      ∀ i ∈ accessesOf b.trace, 0 ≤ i ∧ i ≤ ((5 : Nat) : Int) :=
  ⟨by decide, by decide,
    (accesses_in_bounds .leftFirst 5 [7, -1, -1, 9, -1, -1, 0] (by decide)).1,
    (accesses_in_bounds .leftFirst 5 [7, -1, -1, 9, -1, -1, 0] (by decide)).2 (by decide)⟩

/-- C13. For every `n ≥ 0` and every memo table of length at least `n + 1`,
whatever it holds, the recursion of `fibo(n, dp)` terminates with a result, and
`n + 1` nested activations of `fibo`, the first call included, are enough for it:
no call is nested more than `n` deep below the first one. A larger allowance
changes nothing. -/
theorem fibo_terminates_depth (ord : EvalOrder) (n : Nat) (dp : List Int)
    (hlen : n + 1 ≤ dp.length) :
    ∃ r : Run, fibo ord (n : Int) dp = .ok r ∧
      ∀ fuel : Nat, n + 1 ≤ fuel → fiboFuel ord fuel (n : Int) dp = .ok r := by
  obtain ⟨r, hr, _⟩ := fiboFuel_total ord (n + 1) n dp (by omega) (by omega)
  refine ⟨r, by rw [fibo_natCast]; exact hr, fun fuel hf => ?_⟩
  rw [← hr]
  exact fiboFuel_fuel_irrelevant ord fuel (n + 1) (n : Int) dp (by simp; omega) (by simp)

theorem fibo_terminates_depth_witness :
    (4 + 1 ≤ ([3, -1, -1, -1, -1, 8] : List Int).length) ∧
    ∃ r : Run, fibo .rightFirst ((4 : Nat) : Int) [3, -1, -1, -1, -1, 8] = .ok r ∧
      ∀ fuel : Nat, 4 + 1 ≤ fuel →
        fiboFuel .rightFirst fuel ((4 : Nat) : Int) [3, -1, -1, -1, -1, 8] = .ok r :=
  ⟨by decide, fibo_terminates_depth .rightFirst 4 [3, -1, -1, -1, -1, 8] (by decide)⟩

/-- C14. For every `n ≥ 0` with `Fib n` in the `int` range and every memo table of
length at least `n + 1` in which each cell `i` holds `-1` or `Fib i`, the call
`fibo(n, dp)` returns `Fib n`: two such tables, filled differently, and two
evaluation orders give the same value. -/
theorem fibo_on_valid_table (ord1 ord2 : EvalOrder) (n : Nat) (dp1 dp2 : List Int)
    (hfit : (Fib n : Int) ≤ INT_MAX)
    (hl1 : n + 1 ≤ dp1.length) (hi1 : MemoInv dp1)
    (hl2 : n + 1 ≤ dp2.length) (hi2 : MemoInv dp2) :
    ∃ r1 r2 : Run, fibo ord1 (n : Int) dp1 = .ok r1 ∧ fibo ord2 (n : Int) dp2 = .ok r2 ∧
      r1.val = (Fib n : Int) ∧ r2.val = r1.val := by
  have h46 : n ≤ 46 := (Fib_fits_iff n).mp hfit
  have hv : ∀ dp : List Int, MemoInv dp → ValidUpTo n dp := by
    intro dp hinv i hi v hiv
    rw [wfib_of_le_46 (by omega : i ≤ 46)]
    exact hinv i v hiv
  obtain ⟨r1, h1, hv1, _⟩ := fiboFuel_valid ord1 (n + 1) n dp1 (by omega) (by omega) (hv dp1 hi1)
  obtain ⟨r2, h2, hv2, _⟩ := fiboFuel_valid ord2 (n + 1) n dp2 (by omega) (by omega) (hv dp2 hi2)
  refine ⟨r1, r2, by rw [fibo_natCast]; exact h1, by rw [fibo_natCast]; exact h2, ?_, ?_⟩
  · rw [hv1, wfib_of_le_46 h46]
  · rw [hv1, hv2]

theorem fibo_on_valid_table_witness :
    ((Fib 5 : Int) ≤ INT_MAX) ∧
    (5 + 1 ≤ ([-1, -1, 1, -1, 3, -1, 8] : List Int).length) ∧
    MemoInv [-1, -1, 1, -1, 3, -1, 8] ∧
    (5 + 1 ≤ ([-1, -1, -1, 2, -1, -1] : List Int).length) ∧
    MemoInv [-1, -1, -1, 2, -1, -1] ∧
    ∃ r1 r2 : Run, fibo .leftFirst ((5 : Nat) : Int) [-1, -1, 1, -1, 3, -1, 8] = .ok r1 ∧
      fibo .rightFirst ((5 : Nat) : Int) [-1, -1, -1, 2, -1, -1] = .ok r2 ∧
      r1.val = (Fib 5 : Int) ∧ r2.val = r1.val :=
  have hi1 : MemoInv [-1, -1, 1, -1, 3, -1, 8] := by
    intro i v h
    rcases i with _ | _ | _ | _ | _ | _ | _ | i <;> simp at h <;> subst h <;> decide
  have hi2 : MemoInv [-1, -1, -1, 2, -1, -1] := by
    intro i v h
    rcases i with _ | _ | _ | _ | _ | _ | i <;> simp at h <;> subst h <;> decide
  ⟨by decide, by decide, hi1, by decide, hi2,
    fibo_on_valid_table .leftFirst .rightFirst 5 [-1, -1, 1, -1, 3, -1, 8]
      [-1, -1, -1, 2, -1, -1] (by decide) (by decide) hi1 (by decide) hi2⟩

/-- C15. Frame of `fibo` on a fresh memo table of any length above `n`, for every
`int` `n ≥ 0`. The call returns the `int` value of `Fib n`; its stores are exactly
one store to each of the cells `2, ..., n`, in this order, of the `int` value of
`Fib i` to the cell `i`, so that for `n` in `{0, 1}` it stores nothing and leaves the
table unchanged. For `n ≥ 2` the cells `0` and `1` still hold `-1` after the call;
every cell `i` with `2 ≤ i ≤ n` holds the `int` value of `Fib i`, which is not the
sentinel `-1`, is `Fib i` itself up to `i = 46`, and is the value that `fibo`
returns for the index `i`; and every cell beyond `n` still holds `-1`. -/
theorem fibo_frame_fresh (ord : EvalOrder) (n len : Nat) (hn : (n : Int) ≤ INT_MAX)
    (hlen : n + 1 ≤ len) :
    ∃ r : Run, fibo ord (n : Int) (freshMemo len) = .ok r ∧ r.val = wfib n ∧
      r.dp.length = len ∧
      writesOf r.trace = (List.range' 2 (n - 1)).map (fun i : Nat => ((i : Int), wfib i)) ∧
      (n ≤ 1 → r.dp = freshMemo len) ∧
      (2 ≤ n →
        r.dp[0]? = some (-1) ∧ r.dp[1]? = some (-1) ∧
        (∀ i : Nat, 2 ≤ i → i ≤ n →
          r.dp[i]? = some (wfib i) ∧ wfib i ≠ -1 ∧ (i ≤ 46 → wfib i = (Fib i : Int)) ∧
          ∃ s : Run, fibo ord (i : Int) (freshMemo (i + 1)) = .ok s ∧ s.val = wfib i) ∧
        ∀ i : Nat, n < i → i < len → r.dp[i]? = some (-1)) := by
  unfold INT_MAX at hn
  obtain ⟨tr, h, hw, _⟩ := fibo_fresh_len ord n len (by omega) (by omega)
  refine ⟨_, h, rfl, memoUpTo_length _ _, hw, fun h1 => memoUpTo_le_one len n h1,
    fun h2 => ?_⟩
  refine ⟨?_, ?_, ?_, ?_⟩
  · show (memoUpTo len n)[0]? = some (-1)
    rw [memoUpTo_getElem? _ _ _ (by omega), if_neg (by omega)]
  · show (memoUpTo len n)[1]? = some (-1)
    rw [memoUpTo_getElem? _ _ _ (by omega), if_neg (by omega)]
  · intro i hi2 hin
    refine ⟨?_, wfib_ne_neg_one i (by omega), fun h46 => wfib_of_le_46 h46,
      fibo_fresh_val ord i (i + 1) (by omega)⟩
    show (memoUpTo len n)[i]? = some (wfib i)
    rw [memoUpTo_getElem? _ _ _ (by omega), if_pos ⟨hi2, hin⟩]
  · intro i hni hil
    show (memoUpTo len n)[i]? = some (-1)
    rw [memoUpTo_getElem? _ _ _ hil, if_neg (by omega)]

theorem fibo_frame_fresh_witness :
    (((6 : Nat) : Int) ≤ INT_MAX) ∧ (6 + 1 ≤ 9) ∧
    ∃ r : Run, fibo .leftFirst ((6 : Nat) : Int) (freshMemo 9) = .ok r ∧ r.val = wfib 6 ∧
      r.dp.length = 9 ∧
      writesOf r.trace = (List.range' 2 (6 - 1)).map (fun i : Nat => ((i : Int), wfib i)) ∧
      (6 ≤ 1 → r.dp = freshMemo 9) ∧
      (2 ≤ 6 →
        r.dp[0]? = some (-1) ∧ r.dp[1]? = some (-1) ∧
        (∀ i : Nat, 2 ≤ i → i ≤ 6 →
          r.dp[i]? = some (wfib i) ∧ wfib i ≠ -1 ∧ (i ≤ 46 → wfib i = (Fib i : Int)) ∧
          ∃ s : Run, fibo .leftFirst (i : Int) (freshMemo (i + 1)) = .ok s ∧
            s.val = wfib i) ∧
        ∀ i : Nat, 6 < i → i < 9 → r.dp[i]? = some (-1)) :=
  ⟨by decide, by decide, fibo_frame_fresh .leftFirst 6 9 (by decide) (by decide)⟩

/-- C16. Overflow threshold. For every `n` with `0 ≤ n ≤ 46`, no addition that
`fibo(n, fresh memo)` or `fiboBup(n)` performs overflows, and both return exactly
`Fib n`. For `n = 47` the last addition of each, `1836311903 + 1134903170`, is
above the largest `int`, and the returned value, `-1323752223` with the wrapping
addition, is not `Fib 47`. -/
theorem overflow_threshold (ord : EvalOrder) (n : Nat) (h : n ≤ 46) :
    (∃ (r : Run) (b : BupRun), fibo ord (n : Int) (freshMemo (n + 1)) = .ok r ∧
      fiboBup (n : Int) = .ok b ∧
      (∀ p ∈ addsOf r.trace, sumFits p) ∧ (∀ p ∈ addsOf b.trace, sumFits p) ∧
      r.val = (Fib n : Int) ∧ b.val = (Fib n : Int)) ∧
    (∃ (r : Run) (b : BupRun), fibo ord 47 (freshMemo 48) = .ok r ∧ fiboBup 47 = .ok b ∧
      (addsOf r.trace).getLast? = some (1836311903, 1134903170) ∧
      (addsOf b.trace).getLast? = some (1836311903, 1134903170) ∧
      (1836311903 : Int) + 1134903170 > INT_MAX ∧
      r.val = -1323752223 ∧ b.val = -1323752223 ∧
      r.val ≠ (Fib 47 : Int) ∧ b.val ≠ (Fib 47 : Int)) := by
  have hlast : ((List.range' 2 (47 - 1)).map
      (fun i : Nat => (wfib (i - 1), wfib (i - 2)))).getLast?
        = some (1836311903, 1134903170) := by
    rw [show 47 - 1 = 45 + 1 by rfl, List.range'_1_concat, List.map_append, List.map_singleton,
      List.getLast?_concat]
    decide
  constructor
  · obtain ⟨tr, hr, _, ha, _⟩ := fibo_fresh ord n (by omega)
    have hadds : ∀ p ∈ (List.range' 2 (n - 1)).map
        (fun i : Nat => (wfib (i - 1), wfib (i - 2))), sumFits p := by
      intro p hp
      simp only [List.mem_map, List.mem_range'_1] at hp
      obtain ⟨i, hi, rfl⟩ := hp
      exact sumFits_wfib i (by omega) (by omega)
    match n, h, hr, ha, hadds with
    | 0, _, hr, ha, hadds =>
      exact ⟨_, ⟨0, [], []⟩, hr, rfl, by rw [ha]; exact hadds, by simp,
        wfib_of_le_46 (by omega), rfl⟩
    | 1, _, hr, ha, hadds =>
      exact ⟨_, ⟨1, [], []⟩, hr, rfl, by rw [ha]; exact hadds, by simp,
        wfib_of_le_46 (by omega), rfl⟩
    | m + 2, h, hr, ha, hadds =>
      refine ⟨_, _, hr, fiboBup_spec (m + 2) (by omega) (by omega), by rw [ha]; exact hadds,
        ?_, wfib_of_le_46 h, wfib_of_le_46 h⟩
      simp only [addsOf_append, addsOf_write, addsOf_read, addsOf_nil, List.nil_append,
        List.append_nil, addsOf_loopTrace (m + 2) _ 2 rfl]
      exact hadds
  · obtain ⟨tr, hr, _, ha, _⟩ := fibo_fresh ord 47 (by decide)
    have hv : wfib 47 = -1323752223 := by decide
    have hne : wfib 47 ≠ (Fib 47 : Int) := by decide
    refine ⟨_, _, hr, fiboBup_spec 47 (by decide) (by decide), ?_, ?_, by decide, hv, hv,
      hne, hne⟩
    · rw [ha]; exact hlast
    · simp only [addsOf_append, addsOf_write, addsOf_read, addsOf_nil, List.nil_append,
        List.append_nil, addsOf_loopTrace 47 _ 2 rfl]
      exact hlast

theorem overflow_threshold_witness :
    (46 ≤ 46) ∧
    (∃ (r : Run) (b : BupRun), fibo .leftFirst ((46 : Nat) : Int) (freshMemo (46 + 1)) = .ok r ∧
      fiboBup ((46 : Nat) : Int) = .ok b ∧
      (∀ p ∈ addsOf r.trace, sumFits p) ∧ (∀ p ∈ addsOf b.trace, sumFits p) ∧
      r.val = (Fib 46 : Int) ∧ b.val = (Fib 46 : Int)) ∧
    (∃ (r : Run) (b : BupRun), fibo .leftFirst 47 (freshMemo 48) = .ok r ∧
      fiboBup 47 = .ok b ∧
      (addsOf r.trace).getLast? = some (1836311903, 1134903170) ∧
      (addsOf b.trace).getLast? = some (1836311903, 1134903170) ∧
      (1836311903 : Int) + 1134903170 > INT_MAX ∧
      r.val = -1323752223 ∧ b.val = -1323752223 ∧
      r.val ≠ (Fib 47 : Int) ∧ b.val ≠ (Fib 47 : Int)) :=
  ⟨by decide, overflow_threshold .leftFirst 46 (by decide)⟩

end FiboDP
